import Mathlib

/-!
# Verification of the GoldenRabbit backup synchronization and image engine

This file gives a shallow embedding of `airtable_backup.py` — the backup
synchronization and image-deduplication engine — and proves or refutes the
spec's claims about it.

The embedding covers:
* `calculate_data_hash` — MD5 over `json.dumps(data, sort_keys=True, ensure_ascii=False)`;
* `load_previous_data`, `save_backup_data`, `compare_and_update_data` — the snapshot store
  and change detector;
* the pagination loop of `backup_airtable_data` and the per-view control flow;
* `get_image_priority`, `clean_existing_duplicates`, the image-candidate extraction and
  the download block of `backup_property_images`;
* `cleanup_old_backups` — the retention pass.

File systems are modelled as association structures (directory listings keep
`os.listdir` order), HTTP as oracle functions from URLs to responses, and machine-level
hashing by a full MD5 implementation over `Nat` bytes.
-/

/-! ## MD5 (model of `hashlib.md5(...).hexdigest()`) -/

def w32 : Nat := 4294967296

def rotl32 (x n : Nat) : Nat :=
  ((x <<< n) + (x >>> (32 - n))) % w32

def md5K : List Nat :=
  [0xd76aa478, 0xe8c7b756, 0x242070db, 0xc1bdceee,
   0xf57c0faf, 0x4787c62a, 0xa8304613, 0xfd469501,
   0x698098d8, 0x8b44f7af, 0xffff5bb1, 0x895cd7be,
   0x6b901122, 0xfd987193, 0xa679438e, 0x49b40821,
   0xf61e2562, 0xc040b340, 0x265e5a51, 0xe9b6c7aa,
   0xd62f105d, 0x02441453, 0xd8a1e681, 0xe7d3fbc8,
   0x21e1cde6, 0xc33707d6, 0xf4d50d87, 0x455a14ed,
   0xa9e3e905, 0xfcefa3f8, 0x676f02d9, 0x8d2a4c8a,
   0xfffa3942, 0x8771f681, 0x6d9d6122, 0xfde5380c,
   0xa4beea44, 0x4bdecfa9, 0xf6bb4b60, 0xbebfbc70,
   0x289b7ec6, 0xeaa127fa, 0xd4ef3085, 0x04881d05,
   0xd9d4d039, 0xe6db99e5, 0x1fa27cf8, 0xc4ac5665,
   0xf4292244, 0x432aff97, 0xab9423a7, 0xfc93a039,
   0x655b59c3, 0x8f0ccc92, 0xffeff47d, 0x85845dd1,
   0x6fa87e4f, 0xfe2ce6e0, 0xa3014314, 0x4e0811a1,
   0xf7537e82, 0xbd3af235, 0x2ad7d2bb, 0xeb86d391]

def md5S : List Nat :=
  [7, 12, 17, 22, 7, 12, 17, 22, 7, 12, 17, 22, 7, 12, 17, 22,
   5,  9, 14, 20, 5,  9, 14, 20, 5,  9, 14, 20, 5,  9, 14, 20,
   4, 11, 16, 23, 4, 11, 16, 23, 4, 11, 16, 23, 4, 11, 16, 23,
   6, 10, 15, 21, 6, 10, 15, 21, 6, 10, 15, 21, 6, 10, 15, 21]

def bnot32 (x : Nat) : Nat := x ^^^ (w32 - 1)

/-- One MD5 round; `i` is the round index, `M` the 16 message words of the block. -/
def md5Step (M : List Nat) (i : Nat) (st : Nat × Nat × Nat × Nat) : Nat × Nat × Nat × Nat :=
  let (a, b, c, d) := st
  let f :=
    if i < 16 then (b &&& c) ||| (bnot32 b &&& d)
    else if i < 32 then (d &&& b) ||| (bnot32 d &&& c)
    else if i < 48 then b ^^^ c ^^^ d
    else c ^^^ (b ||| bnot32 d)
  let g :=
    if i < 16 then i
    else if i < 32 then (5 * i + 1) % 16
    else if i < 48 then (3 * i + 5) % 16
    else (7 * i) % 16
  let tmp := (a + f + md5K.getD i 0 + M.getD g 0) % w32
  let nb := (b + rotl32 tmp (md5S.getD i 0)) % w32
  (d, nb, b, c)

/-- Split 64 bytes into 16 little-endian 32-bit words. -/
def leWords : List Nat → List Nat
  | b0 :: b1 :: b2 :: b3 :: rest =>
      (b0 + 256 * b1 + 65536 * b2 + 16777216 * b3) :: leWords rest
  | _ => []

def md5Block (st : Nat × Nat × Nat × Nat) (block : List Nat) : Nat × Nat × Nat × Nat :=
  let M := leWords block
  let (a, b, c, d) := (List.range 64).foldl (fun s i => md5Step M i s) st
  let (a0, b0, c0, d0) := st
  ((a0 + a) % w32, (b0 + b) % w32, (c0 + c) % w32, (d0 + d) % w32)

/-- Chop a byte list into 64-byte blocks (fuel-driven so that it reduces in the kernel). -/
def chunk64Go : Nat → List Nat → List (List Nat)
  | 0, _ => []
  | _ + 1, [] => []
  | f + 1, b :: l => (b :: l).take 64 :: chunk64Go f ((b :: l).drop 64)

def chunk64 (l : List Nat) : List (List Nat) := chunk64Go l.length l

/-- MD5 length-and-one padding of a byte message. -/
def md5Pad (msg : List Nat) : List Nat :=
  let len := msg.length
  let padLen := (56 + 64 - (len + 1) % 64) % 64
  let bitLen := (8 * len) % (2 ^ 64)
  msg ++ [0x80] ++ List.replicate padLen 0 ++
    [bitLen % 256, (bitLen >>> 8) % 256, (bitLen >>> 16) % 256, (bitLen >>> 24) % 256,
     (bitLen >>> 32) % 256, (bitLen >>> 40) % 256, (bitLen >>> 48) % 256, (bitLen >>> 56) % 256]

/-- The four 32-bit state words of the MD5 digest of a byte message. -/
def md5Words (msg : List Nat) : Nat × Nat × Nat × Nat :=
  (chunk64 (md5Pad msg)).foldl md5Block (0x67452301, 0xefcdab89, 0x98badcfe, 0x10325476)

def hexDigitChar (n : Nat) : Char :=
  if n < 10 then Char.ofNat (48 + n) else Char.ofNat (87 + n)

/-- Little-endian lowercase hex rendering of one 32-bit word (8 characters). -/
def hexWordLE (x : Nat) : List Char :=
  [hexDigitChar ((x >>> 4) % 16), hexDigitChar (x % 16),
   hexDigitChar ((x >>> 12) % 16), hexDigitChar ((x >>> 8) % 16),
   hexDigitChar ((x >>> 20) % 16), hexDigitChar ((x >>> 16) % 16),
   hexDigitChar ((x >>> 28) % 16), hexDigitChar ((x >>> 24) % 16)]

/-- `hashlib.md5(msg).hexdigest()`: 32 lowercase hex characters. -/
def md5Hex (msg : List Nat) : String :=
  let (a, b, c, d) := md5Words msg
  String.mk (hexWordLE a ++ hexWordLE b ++ hexWordLE c ++ hexWordLE d)

/-- UTF-8 encoding of a string (model of `str.encode('utf-8')`). -/
def utf8Bytes (s : String) : List Nat :=
  s.data.flatMap (fun c =>
    let n := c.toNat
    if n < 0x80 then [n]
    else if n < 0x800 then [0xC0 + n / 64, 0x80 + n % 64]
    else if n < 0x10000 then [0xE0 + n / 4096, 0x80 + (n / 64) % 64, 0x80 + n % 64]
    else [0xF0 + n / 262144, 0x80 + (n / 4096) % 64, 0x80 + (n / 64) % 64, 0x80 + n % 64])

/-- `hashlib.md5(s.encode(...)).hexdigest()` for a text input. -/
def md5HexStr (s : String) : String := md5Hex (utf8Bytes s)

/-! ## JSON values

Python values handled by `json.dumps` in this engine: `None`, booleans, integers,
strings, lists and dicts (insertion-ordered, string keys).  Mutual inductives are
used (instead of nesting `List`) so that all recursions stay structural and reduce
in the kernel. -/

mutual
inductive Json where
  | null
  | bool (b : Bool)
  | num (n : Int)
  | str (s : String)
  | arr (elems : JList)
  | obj (entries : JObj)
deriving DecidableEq
inductive JList where
  | nil
  | cons (hd : Json) (tl : JList)
deriving DecidableEq
inductive JObj where
  | nil
  | cons (key : String) (val : Json) (tl : JObj)
deriving DecidableEq
end

/-- A Python list of JSON values as a `JList`. -/
def toJList : List Json → JList
  | [] => .nil
  | x :: xs => .cons x (toJList xs)

def jlistToList : JList → List Json
  | .nil => []
  | .cons x tl => x :: jlistToList tl

def jappend : JList → JList → JList
  | .nil, l => l
  | .cons x tl, l => .cons x (jappend tl l)

def oappend : JObj → JObj → JObj
  | .nil, o => o
  | .cons k v tl, o => .cons k v (oappend tl o)

/-- First-match lookup in a JSON object (Python dicts have unique keys). -/
def objLookup : JObj → String → Option Json
  | .nil, _ => none
  | .cons k v tl, key => if k = key then some v else objLookup tl key

/-- `record.get(key)`: `None` when the key is missing (or the value is not a dict). -/
def getField (r : Json) (key : String) : Option Json :=
  match r with
  | .obj es => objLookup es key
  | _ => none

/-- `record.get(key, default)`. -/
def getFieldD (r : Json) (key : String) (dflt : Json) : Json :=
  (getField r key).getD dflt

/-! ## `json.dumps(data, sort_keys=True, ensure_ascii=False)` -/

def digitChar10 (n : Nat) : Char := Char.ofNat (48 + n)

/-- Base-10 digits of `n`, least significant first; the first argument is fuel
(`n` itself is always enough). -/
def natToRevDigits : Nat → Nat → List Nat
  | 0, _ => []
  | f + 1, n => if n = 0 then [] else (n % 10) :: natToRevDigits f (n / 10)

/-- Decimal rendering of a natural number, as Python prints it. -/
def natSer (n : Nat) : List Char :=
  if n = 0 then ['0'] else ((natToRevDigits n n).reverse).map digitChar10

/-- Decimal rendering of an integer, as Python prints it. -/
def intSer : Int → List Char
  | .ofNat m => natSer m
  | .negSucc m => '-' :: natSer (m + 1)

/-- The escape of one character inside a JSON string under `ensure_ascii=False`:
only the quote, the backslash and control characters below 0x20 are escaped. -/
def escChar (c : Char) : List Char :=
  if c = '"' then ['\\', '"']
  else if c = '\\' then ['\\', '\\']
  else if c.toNat = 8 then ['\\', 'b']
  else if c.toNat = 9 then ['\\', 't']
  else if c.toNat = 10 then ['\\', 'n']
  else if c.toNat = 12 then ['\\', 'f']
  else if c.toNat = 13 then ['\\', 'r']
  else if c.toNat < 32 then
    ['\\', 'u', '0', '0', hexDigitChar (c.toNat / 16), hexDigitChar (c.toNat % 16)]
  else [c]

/-- A JSON string literal: quote, escaped characters, quote. -/
def strSer (s : String) : List Char :=
  '"' :: s.data.flatMap escChar ++ ['"']

/-- Code-point lexicographic strict ordering on character lists (Python `str <`). -/
def charListLt : List Char → List Char → Bool
  | [], [] => false
  | [], _ :: _ => true
  | _ :: _, [] => false
  | x :: xs, y :: ys => x.toNat < y.toNat || (x = y && charListLt xs ys)

def strLtB (a b : String) : Bool := charListLt a.data b.data

/-- Insert an entry into a key-sorted object in front of the first key that is
not strictly smaller (the stable insertion of an insertion sort on keys). -/
def objInsert (k : String) (v : Json) : JObj → JObj
  | .nil => .cons k v .nil
  | .cons k' v' tl =>
      if strLtB k' k then .cons k' v' (objInsert k v tl)
      else .cons k v (.cons k' v' tl)

/-- Sort object entries by key — the `sorted(dict.items())` done by `sort_keys=True`. -/
def objSort : JObj → JObj
  | .nil => .nil
  | .cons k v tl => objInsert k v (objSort tl)

mutual
/-- Canonical form of a JSON value: every object's entries sorted by key, recursively.
Two values have the same canonical form exactly when they differ only in the
insertion order of keys inside dicts. -/
def canon : Json → Json
  | .null => .null
  | .bool b => .bool b
  | .num n => .num n
  | .str s => .str s
  | .arr es => .arr (canonList es)
  | .obj es => .obj (objSort (canonObj es))
def canonList : JList → JList
  | .nil => .nil
  | .cons x tl => .cons (canon x) (canonList tl)
def canonObj : JObj → JObj
  | .nil => .nil
  | .cons k v tl => .cons k (canon v) (canonObj tl)
end

mutual
/-- JSON text emission with entries in the order given, with the default
separators `', '` and `': '` of `json.dumps`. -/
def rawSer : Json → List Char
  | .null => "null".data
  | .bool true => "true".data
  | .bool false => "false".data
  | .num n => intSer n
  | .str s => strSer s
  | .arr es => '[' :: rawSerList es ++ [']']
  | .obj es => '{' :: rawSerObj es ++ ['}']
def rawSerList : JList → List Char
  | .nil => []
  | .cons x tl => rawSer x ++ rawSerTail tl
def rawSerTail : JList → List Char
  | .nil => []
  | .cons x tl => ',' :: ' ' :: rawSer x ++ rawSerTail tl
def rawSerObj : JObj → List Char
  | .nil => []
  | .cons k v tl => strSer k ++ ':' :: ' ' :: rawSer v ++ rawSerObjTail tl
def rawSerObjTail : JObj → List Char
  | .nil => []
  | .cons k v tl => ',' :: ' ' :: strSer k ++ ':' :: ' ' :: rawSer v ++ rawSerObjTail tl
end

/-- `json.dumps(j, sort_keys=True, ensure_ascii=False)`: serialize with every object's
keys in sorted order.  `sort_keys=True` sorts each dict's items at emission time, which
is factored here as canonicalization followed by in-order emission. -/
def ser (j : Json) : List Char := rawSer (canon j)

def serStr (j : Json) : String := String.mk (ser j)

/-- `calculate_data_hash` (airtable_backup.py:52-55): MD5 hex digest of the stable,
key-sorted JSON serialization of the data. -/
def calculate_data_hash (data : Json) : String :=
  md5HexStr (serStr data)

/-! ## Snapshot store (`load_previous_data`, `save_backup_data`)

The backup directory is modelled as a map from file names to contents.  A stored
document is either parsable JSON or unparsable bytes (`garbage`). -/

inductive FileContent where
  | json (doc : Json)
  | garbage
deriving DecidableEq

def FS : Type := String → Option FileContent

def fsSet (fs : FS) (name : String) (c : FileContent) : FS :=
  fun n => if n = name then some c else fs n

/-- `load_previous_data` (airtable_backup.py:57-66): `None` when the file is missing
or cannot be parsed. -/
def load_previous_data (fs : FS) (filename : String) : Option Json :=
  match fs filename with
  | some (.json d) => some d
  | _ => none

/-- `save_backup_data` (airtable_backup.py:68-73): whole-document overwrite. -/
def save_backup_data (fs : FS) (data : Json) (filename : String) : FS :=
  fsSet fs filename (.json data)

/-! ## Change detector (`compare_and_update_data`) -/

/-- `record.get('id')` used as a dict key (it may be any JSON value or absent). -/
def recId (r : Json) : Option Json := getField r "id"

/-- The distinct keys of `{record.get('id'): record for record in l}`. -/
def idKeys (l : List Json) : List (Option Json) :=
  (l.map recId).dedup

/-- Lookup in `{record.get('id'): record}`: the last record with that id wins. -/
def idLookup (l : List Json) (i : Option Json) : Option Json :=
  (l.filter (fun r => recId r = i)).getLast?

structure CompareResult where
  fs : FS
  updated : Bool
  recordCount : Nat
  changes : Nat
  finalCount : Nat

/-- `compare_and_update_data` (airtable_backup.py:75-116): hash the fetched list,
compare with the hash of the stored snapshot, write only on difference (or when no
previous snapshot loads). -/
def compare_and_update_data (fs : FS) (new_data : List Json) (filename : String) :
    CompareResult :=
  let previous_data := load_previous_data fs filename
  let new_hash := calculate_data_hash (.arr (toJList new_data))
  match previous_data with
  | none =>
      { fs := save_backup_data fs (.arr (toJList new_data)) filename
        updated := true, recordCount := new_data.length, changes := 0
        finalCount := new_data.length }
  | some prev =>
      let previous_hash := calculate_data_hash prev
      if new_hash = previous_hash then
        { fs := fs, updated := false, recordCount := new_data.length, changes := 0
          finalCount := 0 }
      else
        let prevList : List Json := match prev with
          | .arr l => jlistToList l
          | _ => []
        let newIds := idKeys new_data
        let prevIds := idKeys prevList
        let addedCount := (newIds.filter (fun i => ¬ i ∈ prevIds)).length
        let removedCount := (prevIds.filter (fun i => ¬ i ∈ newIds)).length
        let modifiedCount := (newIds.filter (fun i => i ∈ prevIds ∧
            (idLookup new_data i).map calculate_data_hash ≠
            (idLookup prevList i).map calculate_data_hash)).length
        { fs := save_backup_data fs (.arr (toJList new_data)) filename
          updated := true, recordCount := new_data.length
          changes := addedCount + removedCount + modifiedCount
          finalCount := new_data.length }

/-! ## Record fetcher (pagination loop of `backup_airtable_data`, lines 150-177) -/

/-- One page response of the remote dataset API.  `exn` models an exception raised
by `requests.get`; `resp` carries the HTTP status, the `records` list and whether an
`offset` cursor for a next page is present. -/
inductive Page where
  | exn
  | resp (status : Nat) (records : List Json) (hasMore : Bool)

inductive FetchOutcome where
  | exn
  | httpBroke
  | complete
deriving DecidableEq

/-- The pagination loop: walk the pages in order; a non-200 status executes `break`
(keeping the records of earlier pages and falling through); an exception aborts the
view (also keeping earlier pages in the run-global `all_records`); an absent cursor
ends the loop normally.  Running out of supplied pages while a cursor is pending is
modelled as a request exception. -/
def fetchGo : List Page → List Json × FetchOutcome
  | [] => ([], .exn)
  | .exn :: _ => ([], .exn)
  | .resp status records hasMore :: rest =>
      if status ≠ 200 then ([], .httpBroke)
      else if hasMore then
        let (tl, oc) := fetchGo rest
        (records ++ tl, oc)
      else (records, .complete)

/-! ## Image subsystem (`backup_property_images`, lines 229-478)

A record's image directory is a list of `(filename, bytes)` pairs in `os.listdir`
order; the image metadata document is an insertion-ordered association list. -/

def strLower (s : String) : String := String.mk (s.data.map Char.toLower)

def subOccurs (sub : List Char) : List Char → Bool
  | [] => sub.isEmpty
  | c :: tl => sub.isPrefixOf (c :: tl) || subOccurs sub tl

/-- Python `sub in s` on strings. -/
def strContains (s sub : String) : Bool := subOccurs sub.data s.data

/-- Python `s.startswith(pre)`. -/
def pyStarts (s pre : String) : Bool := pre.data.isPrefixOf s.data

/-- Python whitespace stripped by `str.strip()`. -/
def pyWs (c : Char) : Bool :=
  c = ' ' || c = '\t' || c = '\n' || c = '\x0d' || c = '\x0b' || c = '\x0c'

/-- Python `s.strip()`. -/
def pyStrip (s : String) : String :=
  String.mk (((s.data.dropWhile pyWs).reverse.dropWhile pyWs).reverse)

/-- Split on the leftmost non-overlapping occurrences of a non-empty separator;
the first argument is fuel (the input length is always enough). -/
def splitSubGo (sep : List Char) : Nat → List Char → List (List Char)
  | _, [] => [[]]
  | 0, l => [l]
  | f + 1, x :: xs =>
      if sep.isPrefixOf (x :: xs) then
        [] :: splitSubGo sep f ((x :: xs).drop sep.length)
      else
        match splitSubGo sep f xs with
        | seg :: rest => (x :: seg) :: rest
        | [] => [[x]]

/-- Python `s.split(sep)` for a non-empty separator. -/
def pySplit (s sep : String) : List String :=
  (splitSubGo sep.data s.data.length s.data).map String.mk

/-- Join character lists with a single separator character. -/
def joinWithChar (c : Char) : List (List Char) → List Char
  | [] => []
  | [l] => l
  | l :: l' :: rest => l ++ c :: joinWithChar c (l' :: rest)

/-- `f.lower().endswith(('.jpg', '.jpeg', '.png', '.gif', '.webp'))`. -/
def isImageExt (f : String) : Bool :=
  [".jpg", ".jpeg", ".png", ".gif", ".webp"].any
    (fun e => e.data.isSuffixOf (strLower f).data)

/-- `get_image_priority` (airtable_backup.py:253-271): `(priority class, len(filename))`. -/
def get_image_priority (filename : String) : Nat × Nat :=
  let fl := strLower filename
  if ["202", "kakao", "img_", "dsc_", "photo_202"].any (fun k => strContains fl k) then
    (1, filename.length)
  else if strContains fl "representative" then
    (2, filename.length)
  else if (¬ pyStarts fl "photo_") ∨ filename.length > 15 then
    (3, filename.length)
  else
    (4, filename.length)

/-- One record directory: `(filename, content bytes)` in listdir order. -/
abbrev DirFiles := List (String × List Nat)

def fLookup : DirFiles → String → Option (List Nat)
  | [], _ => none
  | e :: tl, n => if e.1 = n then some e.2 else fLookup tl n

/-- `open(name, 'wb')`: truncate in place or create at the end of the listing. -/
def fWrite : DirFiles → String → List Nat → DirFiles
  | [], n, b => [(n, b)]
  | e :: tl, n, b => if e.1 = n then (n, b) :: tl else e :: fWrite tl n b

/-- `os.remove(name)`. -/
def fRemove : DirFiles → String → DirFiles
  | [], _ => []
  | e :: tl, n => if e.1 = n then tl else e :: fRemove tl n

/-- The `{'filename', 'size', 'priority'}` entries built by `clean_existing_duplicates`. -/
structure ExFile where
  filename : String
  size : Nat
  priority : Nat × Nat
deriving DecidableEq

/-- The sort key `(x['priority'][0], -x['size'])` in ascending lexicographic order:
smaller priority class first, then larger size.  The filename-length component of
`priority` is not part of the key. -/
def pyFileLe (a b : ExFile) : Prop :=
  a.priority.1 < b.priority.1 ∨ (a.priority.1 = b.priority.1 ∧ b.size ≤ a.size)

instance pyFileLeDec : DecidableRel pyFileLe := fun a b => by
  unfold pyFileLe; infer_instance

/-- `clean_existing_duplicates` (airtable_backup.py:273-311) on a record directory:
collect the valid image files (recognized extension, size strictly above 1000 bytes),
sort them stably by `(priority class, -size)`, keep the first and delete the rest.
Returns (kept filename, number deleted, resulting directory). -/
def clean_existing_duplicates (contents : DirFiles) : Option String × Nat × DirFiles :=
  let existing := (contents.filter
      (fun e => isImageExt e.1 && decide (1000 < e.2.length))).map
      (fun e => ExFile.mk e.1 e.2.length (get_image_priority e.1))
  match existing.insertionSort pyFileLe with
  | [] => (none, 0, contents)
  | best :: rest =>
      let deleteNames := rest.map (fun f => f.filename)
      (some best.filename, rest.length,
       contents.filter (fun e => ¬ e.1 ∈ deleteNames))

/-- An image candidate as built in lines 336-365. -/
structure Candidate where
  url : String
  filename : String
  ctype : String
  priority : Nat
deriving DecidableEq

/-- Candidates from the `대표사진` attachment list (lines 341-351); `i` is the
enumeration index and the third argument the `processed_urls` set. -/
def repCandidates : List Json → Nat → List String → List Candidate × List String
  | [], _, processed => ([], processed)
  | a :: rest, i, processed =>
      match getField a "url" with
      | some (.str u) =>
          if u ≠ "" ∧ ¬ u ∈ processed then
            let fname := match getField a "filename" with
              | some (.str s) => s
              | _ => "representative_" ++ toString (i + 1) ++ ".jpg"
            let (cs, p') := repCandidates rest (i + 1) (processed ++ [u])
            (⟨u, fname, "representative", 1⟩ :: cs, p')
          else repCandidates rest (i + 1) processed
      | _ => repCandidates rest (i + 1) processed

/-- Candidates from the comma-separated `사진링크` field (lines 353-365). -/
def linkCandidates : List String → Nat → List String → List Candidate × List String
  | [], _, processed => ([], processed)
  | l :: rest, i, processed =>
      let link := pyStrip l
      if link ≠ "" ∧ pyStarts link "http" ∧ ¬ link ∈ processed then
        let (cs, p') := linkCandidates rest (i + 1) (processed ++ [link])
        (⟨link, "photo_link_" ++ toString (i + 1) ++ ".jpg", "link", 2⟩ :: cs, p')
      else linkCandidates rest (i + 1) processed

/-- The full ordered candidate list of one record's fields: attachment candidates
first, then link candidates whose URLs were not already seen. -/
def extractCandidates (fields : Json) : List Candidate :=
  let repPair :=
    match getField fields "대표사진" with
    | some (.arr l) =>
        match jlistToList l with
        | [] => ([], [])
        | x :: xs => repCandidates (x :: xs) 0 []
    | _ => ([], [])
  let links :=
    match getField fields "사진링크" with
    | some (.str s) => if s ≠ "" then (linkCandidates (pySplit s ",") 0 repPair.2).1 else []
    | _ => []
  repPair.1 ++ links

def candLe (a b : Candidate) : Prop := a.priority ≤ b.priority

instance candLeDec : DecidableRel candLe := fun a b => by
  unfold candLe; infer_instance

/-- `image_urls.sort(key=lambda x: x['priority'])` followed by `image_urls[0]`. -/
def chooseCandidate (cs : List Candidate) : Option Candidate :=
  match cs.insertionSort candLe with
  | [] => none
  | c :: _ => some c

/-- A value stored in `image_metadata.json`. -/
inductive MVal where
  | b (v : Bool)
  | s (v : String)
  | stats (duplicatesCleaned newImages updatedImages : Nat)
deriving DecidableEq

abbrev Meta := List (String × MVal)

def metaLookup : Meta → String → Option MVal
  | [], _ => none
  | e :: tl, k => if e.1 = k then some e.2 else metaLookup tl k

/-- Python dict assignment: replace in place, or append a new key. -/
def metaSet : Meta → String → MVal → Meta
  | [], k, v => [(k, v)]
  | e :: tl, k, v => if e.1 = k then (k, v) :: tl else e :: metaSet tl k v

/-- Python truthiness of `image_metadata.get(...)`. -/
def mvalTruthy : Option MVal → Bool
  | none => false
  | some (.b b) => b
  | some (.s s) => s ≠ ""
  | some (.stats _ _ _) => true

/-- Result of `requests.get(url, timeout=30, stream=True)` together with the chunked
body iteration: `exn` is an exception from the request itself; `resp` carries the
status, the bytes written before the iteration ends, and whether the iteration then
raises (a truncated stream). -/
inductive Dl where
  | exn
  | resp (status : Nat) (body : List Nat) (midExn : Bool)

inductive DlOutcome where
  | skipped
  | nameError
  | reqExn
  | httpErr
  | midExn
  | undersized
  | ok
deriving DecidableEq

/-- `Path(urlparse(url).path).parts[-1]`: the last component of the URL path,
`none` when `parts` is empty (which raises IndexError in the source). -/
def lastPathPart (url : String) : Option String :=
  let noFrag := (pySplit url "#").headD ""
  let noQuery := (pySplit noFrag "?").headD ""
  let path :=
    match pySplit noQuery "://" with
    | _ :: rest :: _ =>
        (match pySplit rest "/" with
         | _ :: segs =>
             if segs = [] then ""
             else String.mk ('/' :: joinWithChar '/' (segs.map String.data))
         | [] => "")
    | _ => noQuery
  let segs := (pySplit path "/").filter (fun s => s ≠ "")
  match segs.getLast? with
  | some s => some s
  | none => if pyStarts path "/" then some "/" else none

structure DlStep where
  outcome : DlOutcome
  fname : Option String
  contents : DirFiles
  meta : Meta
  newInc : Nat
  updInc : Nat
  skipInc : Nat
  errInc : Nat
  download : List String
deriving DecidableEq

/-- Lines 379-391: take the candidate's suggested filename (falling back to the last
URL path component — `none` models the IndexError when there is none), ensure an
extension, strip unsafe characters, and fall back to a time-stamped name when
nothing survives. -/
def resolveFinalName (cand : Candidate) (now : Nat) : Option String :=
  match (if cand.filename ≠ "" then some cand.filename else lastPathPart cand.url) with
  | none => none
  | some original0 =>
      let original := if strContains original0 "." then original0 else original0 ++ ".jpg"
      let sanitized := String.mk (original.data.filter
        (fun c => c.isAlphanum || c = '.' || c = '-' || c = '_'))
      some (if sanitized = "" ∨ sanitized = ".jpg" then "image_" ++ toString now ++ ".jpg"
            else sanitized)

/-- The download block for the chosen candidate (airtable_backup.py:375-447):
resolve and sanitize the filename, short-circuit on a matching URL hash, download
to `filename + '.tmp'`, and either rename into place (success), delete the temp
(undersized payload), or leave state as the exception path leaves it. -/
def downloadStep (rid : String) (cand : Candidate) (contents : DirFiles) (meta : Meta)
    (net : String → Dl) (now : Nat) : DlStep :=
  match resolveFinalName cand now with
  | none => ⟨.nameError, none, contents, meta, 0, 0, 0, 1, []⟩
  | some filename =>
      let url_hash := md5HexStr cand.url
      let prev_hash := metaLookup meta (rid ++ "_hash")
      if (fLookup contents filename).isSome ∧ prev_hash = some (.s url_hash) then
        ⟨.skipped, some filename, contents, meta, 0, 0, 1, 0, []⟩
      else
        match net cand.url with
        | .exn => ⟨.reqExn, some filename, contents, meta, 0, 0, 0, 1, [cand.url]⟩
        | .resp status body midExn =>
            if status = 200 then
              let temp := filename ++ ".tmp"
              let c1 := fWrite contents temp body
              if midExn then
                ⟨.midExn, some filename, c1, meta, 0, 0, 0, 1, [cand.url]⟩
              else if 1000 < body.length then
                let c2 := fWrite (fRemove c1 temp) filename body
                let m1 := metaSet meta (rid ++ "_hash") (.s url_hash)
                let m2 := metaSet m1 (rid ++ "_filename") (.s filename)
                let m3 := metaSet m2 (rid ++ "_type") (.s cand.ctype)
                let m4 := metaSet m3 (rid ++ "_optimized") (.b true)
                if mvalTruthy prev_hash then
                  ⟨.ok, some filename, c2, m4, 0, 1, 0, 0, [cand.url]⟩
                else
                  ⟨.ok, some filename, c2, m4, 1, 0, 0, 0, [cand.url]⟩
              else
                ⟨.undersized, some filename, fRemove c1 temp, meta, 0, 0, 0, 1, [cand.url]⟩
            else
              ⟨.httpErr, some filename, contents, meta, 0, 0, 0, 1, [cand.url]⟩

structure ImgAcc where
  dirs : List (String × DirFiles)
  meta : Meta
  newImages : Nat
  updatedImages : Nat
  skippedImages : Nat
  errorImages : Nat
  cleanedDuplicates : Nat
  downloads : List String
deriving DecidableEq

def dirLookup : List (String × DirFiles) → String → Option DirFiles
  | [], _ => none
  | e :: tl, n => if e.1 = n then some e.2 else dirLookup tl n

def dirSet : List (String × DirFiles) → String → DirFiles → List (String × DirFiles)
  | [], n, c => [(n, c)]
  | e :: tl, n, c => if e.1 = n then (n, c) :: tl else e :: dirSet tl n c

/-- The per-record loop body of `backup_property_images` (lines 313-447). -/
def processRecord (net : String → Dl) (now : Nat) (acc : ImgAcc) (r : Json) : ImgAcc :=
  match getField r "id" with
  | some (.str rid) =>
      if rid = "" then acc
      else
        let fields := getFieldD r "fields" (.obj .nil)
        let dirs0 := if (dirLookup acc.dirs rid).isSome then acc.dirs
                     else acc.dirs ++ [(rid, [])]
        let contents := (dirLookup dirs0 rid).getD []
        let cleaned := clean_existing_duplicates contents
        let dirs1 := dirSet dirs0 rid cleaned.2.2
        let acc1 := { acc with dirs := dirs1
                               cleanedDuplicates := acc.cleanedDuplicates + cleaned.2.1 }
        match cleaned.1 with
        | some best =>
            { acc1 with
              meta := metaSet (metaSet acc1.meta (rid ++ "_optimized") (.b true))
                        (rid ++ "_filename") (.s best)
              skippedImages := acc1.skippedImages + 1 }
        | none =>
            match chooseCandidate (extractCandidates fields) with
            | none => acc1
            | some cand =>
                let step := downloadStep rid cand cleaned.2.2 acc1.meta net now
                { acc1 with
                  dirs := dirSet dirs1 rid step.contents
                  meta := step.meta
                  newImages := acc1.newImages + step.newInc
                  updatedImages := acc1.updatedImages + step.updInc
                  skippedImages := acc1.skippedImages + step.skipInc
                  errorImages := acc1.errorImages + step.errInc
                  downloads := acc1.downloads ++ step.download }
  | _ => acc

inductive MetaFile where
  | absent
  | garbage
  | doc (entries : Meta)
deriving DecidableEq

structure ImgState where
  dirs : List (String × DirFiles)
  metaFile : MetaFile
deriving DecidableEq

structure ImgStats where
  newImages : Nat
  updatedImages : Nat
  skippedImages : Nat
  errorImages : Nat
  duplicatesCleaned : Nat
  totalProcessed : Nat
deriving DecidableEq

/-- `backup_property_images` (airtable_backup.py:229-478): load the metadata document
(empty on absence or parse failure), run the per-record loop, then store the metadata
back with the run summary keys.  Also returns the list of URLs that were passed to
`requests.get`. -/
def backup_property_images (records : List Json) (st : ImgState) (net : String → Dl)
    (now : Nat) : ImgState × ImgStats × List String :=
  let meta0 := match st.metaFile with
    | .doc m => m
    | _ => []
  let acc0 : ImgAcc := ⟨st.dirs, meta0, 0, 0, 0, 0, 0, []⟩
  let acc := records.foldl (processRecord net now) acc0
  let m1 := metaSet acc.meta "last_optimization" (.s (toString now))
  let m2 := metaSet m1 "optimization_stats"
              (.stats acc.cleanedDuplicates acc.newImages acc.updatedImages)
  (⟨acc.dirs, .doc m2⟩,
   ⟨acc.newImages, acc.updatedImages, acc.skippedImages, acc.errorImages,
    acc.cleanedDuplicates,
    acc.newImages + acc.updatedImages + acc.skippedImages + acc.errorImages⟩,
   acc.downloads)

/-! ## The per-run driver (`backup_airtable_data`, lines 118-227) -/

structure ViewCfg where
  vname : String
  vid : String
  filename : String
deriving DecidableEq

/-- The `VIEWS` table (airtable_backup.py:33-50), in iteration order. -/
def VIEWS : List ViewCfg :=
  [⟨"all", "viwyV15T4ihMpbDbr", "all_properties.json"⟩,
   ⟨"reconstruction", "viwzEVzrr47fCbDNU", "reconstruction_properties.json"⟩,
   ⟨"high_yield", "viwxS4dKAcQWmB0Be", "high_yield_properties.json"⟩,
   ⟨"low_cost", "viwUKnawSP8SkV9Sx", "low_cost_properties.json"⟩]

structure RunAcc where
  fs : FS
  totalRecords : Nat
  successCount : Nat
  totalChanges : Nat
  updatedViews : List String
  allRecords : List Json
  snapshotWrites : List String

/-- One iteration of the per-view loop (lines 138-193): fetch all pages, and unless
an exception aborted the view, run the change detector and record the outcome.
Records fetched for the `all` view are accumulated for image processing (even when
a later page of the view raised). -/
def processView (remote : String → List Page) (acc : RunAcc) (v : ViewCfg) : RunAcc :=
  let fetched := fetchGo (remote v.vid)
  let allRecords' := if v.vname = "all" then acc.allRecords ++ fetched.1 else acc.allRecords
  match fetched.2 with
  | .exn => { acc with allRecords := allRecords' }
  | _ =>
      let res := compare_and_update_data acc.fs fetched.1 v.filename
      { fs := res.fs
        totalRecords := acc.totalRecords + res.recordCount
        successCount := acc.successCount + 1
        totalChanges := acc.totalChanges + (if res.updated then res.changes else 0)
        updatedViews := if res.updated then acc.updatedViews ++ [v.vname]
                        else acc.updatedViews
        allRecords := allRecords'
        snapshotWrites := if res.updated then acc.snapshotWrites ++ [v.filename]
                          else acc.snapshotWrites }

structure SysState where
  files : FS
  img : ImgState

structure RunLog where
  updatedViews : List String
  snapshotWrites : List String
  imageDownloads : List String

structure RunResult where
  state : SysState
  log : RunLog
  success : Bool

def strJList : List String → JList
  | [] => .nil
  | s :: tl => .cons (.str s) (strJList tl)

/-- The run metadata document written to `metadata.json` (lines 204-218). -/
def runMetadataJson (now : Nat) (acc : RunAcc) (stats : ImgStats) : Json :=
  .obj (.cons "last_backup_date" (.str (toString now))
    (.cons "last_backup_time" (.str (toString now))
    (.cons "total_records" (.num (acc.totalRecords : Int))
    (.cons "views_processed" (.num (acc.successCount : Int))
    (.cons "total_views" (.num 4)
    (.cons "updated_views" (.arr (strJList acc.updatedViews))
    (.cons "total_changes" (.num (acc.totalChanges : Int))
    (.cons "image_stats" (.obj
        (.cons "new_images" (.num (stats.newImages : Int))
        (.cons "updated_images" (.num (stats.updatedImages : Int))
        (.cons "skipped_images" (.num (stats.skippedImages : Int))
        (.cons "total_processed" (.num (stats.totalProcessed : Int)) .nil)))))
    (.cons "backup_type" (.str "incremental") .nil)))))))))

/-- `backup_airtable_data` (airtable_backup.py:118-227): missing API key aborts;
otherwise every configured view is processed in order, images are processed only
when the `all` view was updated this run and yielded records, and the run metadata
document is written.  `remote` maps a view id to its page responses and `net` maps
an image URL to its download behavior; `now` stands for the wall clock. -/
def backup_airtable_data (hasKey : Bool) (st : SysState) (remote : String → List Page)
    (net : String → Dl) (now : Nat) : RunResult :=
  if ¬ hasKey then ⟨st, ⟨[], [], []⟩, false⟩
  else
    let acc0 : RunAcc := ⟨st.files, 0, 0, 0, [], [], []⟩
    let acc := VIEWS.foldl (processView remote) acc0
    let zero : ImgStats := ⟨0, 0, 0, 0, 0, 0⟩
    let imgres :=
      if "all" ∈ acc.updatedViews ∧ acc.allRecords ≠ [] then
        backup_property_images acc.allRecords st.img net now
      else (st.img, zero, [])
    let fs' := fsSet acc.fs "metadata.json" (.json (runMetadataJson now acc imgres.2.1))
    ⟨⟨fs', imgres.1⟩, ⟨acc.updatedViews, acc.snapshotWrites, imgres.2.2⟩,
      acc.successCount = VIEWS.length⟩

/-! ## Retention pass (`cleanup_old_backups`, lines 480-511) -/

inductive FsEntry where
  | dir
  | file
deriving DecidableEq

def isLeapYear (y : Nat) : Bool := y % 4 = 0 && (y % 100 ≠ 0 || y % 400 = 0)

def daysInMonth (y m : Nat) : Nat :=
  if m = 2 then (if isLeapYear y then 29 else 28)
  else if m = 4 ∨ m = 6 ∨ m = 9 ∨ m = 11 then 30
  else 31

def digitVal (c : Char) : Nat := c.toNat - 48

/-- `datetime.strptime(name, '%Y-%m-%d')` restricted to length-10 inputs: the
canonical zero-padded calendar date, years 1-9999. -/
def parseYMD (name : String) : Option (Nat × Nat × Nat) :=
  match name.data with
  | [y1, y2, y3, y4, h1, m1, m2, h2, d1, d2] =>
      if y1.isDigit ∧ y2.isDigit ∧ y3.isDigit ∧ y4.isDigit ∧ h1 = '-' ∧
         m1.isDigit ∧ m2.isDigit ∧ h2 = '-' ∧ d1.isDigit ∧ d2.isDigit then
        let y := 1000 * digitVal y1 + 100 * digitVal y2 + 10 * digitVal y3 + digitVal y4
        let m := 10 * digitVal m1 + digitVal m2
        let d := 10 * digitVal d1 + digitVal d2
        if 1 ≤ y ∧ 1 ≤ m ∧ m ≤ 12 ∧ 1 ≤ d ∧ d ≤ daysInMonth y m then some (y, m, d)
        else none
      else none
  | _ => none

def countDash (s : String) : Nat := (s.data.filter (fun c => c = '-')).length

/-- `cleanup_old_backups` (airtable_backup.py:480-511) over the backup root's
listing: delete every directory whose name has length 10, exactly two dashes and
parses with `strptime('%Y-%m-%d')`.  Returns the names removed, in listing order. -/
def cleanup_old_backups (listing : List (String × FsEntry)) : List String :=
  listing.foldl (fun removed e =>
    if e.2 = .dir ∧ e.1.length = 10 ∧ countDash e.1 = 2 ∧ (parseYMD e.1).isSome
    then removed ++ [e.1] else removed) []

/-! ## Claim-level predicates and auxiliary definitions -/

/-- The in-memory metadata dict that `backup_property_images` starts from. -/
def metaDocOf : MetaFile → Meta
  | .doc m => m
  | _ => []

/-- The entry `clean_existing_duplicates` builds for one directory entry. -/
def toExFile (e : String × List Nat) : ExFile :=
  ⟨e.1, e.2.length, get_image_priority e.1⟩

/-- The first minimizer of a list under `pyFileLe` — the element a stable ascending
sort brings to the front. -/
def pickBest : List ExFile → Option ExFile
  | [] => none
  | x :: xs =>
      match pickBest xs with
      | none => some x
      | some b => if pyFileLe x b then some x else some b

/-- Invariant tying a stored view snapshot to what the remote returns for the view:
the stored document parses and hashes identically to the fetched record list. -/
def viewSnapshotMatches (remote : String → List Page) (fs : FS) (v : ViewCfg) : Prop :=
  ∃ d, fs v.filename = some (.json d) ∧
    calculate_data_hash d = calculate_data_hash (.arr (toJList (fetchGo (remote v.vid)).1))

/-- A tail that cannot extend a decimal numeral: empty or starting with a non-digit. -/
def GoodTail (r : List Char) : Prop :=
  ∀ c t, r = c :: t → c.isDigit = false

/-- Two record lists that are identical except for the value of one field of one
record: same records before and after, same object entries around the `fields`
entry, same field keys around field `k`, whose values `v1 ≠ v2` differ. -/
def RecordListsDifferInOneField (l1 l2 : JList) : Prop :=
  ∃ pre post opre opost fpre fpost k v1 v2,
    l1 = jappend pre (.cons (.obj (oappend opre (.cons "fields"
            (.obj (oappend fpre (.cons k v1 fpost))) opost))) post) ∧
    l2 = jappend pre (.cons (.obj (oappend opre (.cons "fields"
            (.obj (oappend fpre (.cons k v2 fpost))) opost))) post) ∧
    v1 ≠ v2

/-- A string of `n` letters `a`. -/
def aStr (n : Nat) : String := String.mk (List.replicate n 'a')

/-- A record whose only field is a note string — the family used to exhibit that
MD5 cannot be injective. -/
def c6Record (s : String) : Json :=
  .obj (.cons "fields" (.obj (.cons "note" (.str s) .nil)) (.cons "id" (.str "rec1") .nil))

def c6List (n : Nat) : JList := .cons (c6Record (aStr n)) .nil

/-- The MD5 digest packed into one natural number below `2^128`. -/
def md5Nat (msg : List Nat) : Nat :=
  let (a, b, c, d) := md5Words msg
  a + w32 * (b + w32 * (c + w32 * d))

mutual
/-- Structural size measures used for strong induction over JSON values. -/
def jsize : Json → Nat
  | .null => 1
  | .bool _ => 1
  | .num _ => 1
  | .str _ => 1
  | .arr es => 1 + jlsize es
  | .obj es => 1 + josize es
def jlsize : JList → Nat
  | .nil => 0
  | .cons x tl => 1 + jsize x + jlsize tl
def josize : JObj → Nat
  | .nil => 0
  | .cons _ v tl => 1 + jsize v + josize tl
end

/-- The discriminating first character class of a serialized JSON value. -/
def charClass (c : Char) : Nat :=
  if c = 'n' then 0
  else if c = 't' ∨ c = 'f' then 1
  else if c = '"' then 3
  else if c = '[' then 4
  else if c = '{' then 5
  else if c.isDigit ∨ c = '-' then 2
  else 6

def ctorClass : Json → Nat
  | .null => 0
  | .bool _ => 1
  | .num _ => 2
  | .str _ => 3
  | .arr _ => 4
  | .obj _ => 5

/-! ### Escape decoding (used to prove the serializer injective) -/

/-- Value of one lowercase hex digit character. -/
def hexVal (c : Char) : Nat :=
  if c.toNat ≤ 57 then c.toNat - 48 else c.toNat - 87

/-- Decoder of one escape chunk of a JSON string literal — the left inverse of
`escChar`, witnessing that the escaped stream is uniquely decodable. -/
def decodeEsc : List Char → Option (Char × List Char)
  | [] => none
  | c :: rest =>
    if c = '\\' then
      match rest with
      | [] => none
      | d :: rest2 =>
        if d = '"' then some ('"', rest2)
        else if d = '\\' then some ('\\', rest2)
        else if d = 'b' then some (Char.ofNat 8, rest2)
        else if d = 't' then some (Char.ofNat 9, rest2)
        else if d = 'n' then some (Char.ofNat 10, rest2)
        else if d = 'f' then some (Char.ofNat 12, rest2)
        else if d = 'r' then some (Char.ofNat 13, rest2)
        else if d = 'u' then
          match rest2 with
          | _ :: _ :: h1 :: h2 :: rest3 =>
              some (Char.ofNat (16 * hexVal h1 + hexVal h2), rest3)
          | _ => none
        else none
    else some (c, rest)

/-! ## Theorems -/

set_option maxRecDepth 8000

/-! ### Shared helper lemmas -/

theorem load_previous_none {fs : FS} {filename : String}
    (h : fs filename = none ∨ fs filename = some .garbage) :
    load_previous_data fs filename = none := by
  unfold load_previous_data
  rcases h with h | h <;> rw [h]

theorem save_backup_self (fs : FS) (d : Json) (filename : String) :
    save_backup_data fs d filename filename = some (.json d) := by
  unfold save_backup_data fsSet
  rw [if_pos rfl]

/-- C5: no previous snapshot (missing or unparsable) means Changed and an
unconditional write. -/
theorem claim_C5 (fs : FS) (new : List Json) (filename : String)
    (h : fs filename = none ∨ fs filename = some .garbage) :
    (compare_and_update_data fs new filename).updated = true ∧
    (compare_and_update_data fs new filename).fs filename =
      some (.json (.arr (toJList new))) := by
  have hl : load_previous_data fs filename = none := load_previous_none h
  unfold compare_and_update_data
  rw [hl]
  exact ⟨rfl, save_backup_self ..⟩

theorem claim_C5_witness :
    (compare_and_update_data (fun _ => none) [] "all_properties.json").updated = true ∧
    (compare_and_update_data (fun _ => none) [] "all_properties.json").fs
      "all_properties.json" = some (.json (.arr (toJList []))) :=
  claim_C5 (fun _ => none) [] "all_properties.json" (Or.inl rfl)

/-! ### C7 -/

theorem cleanup_foldl_char (l : List (String × FsEntry)) : ∀ acc : List String,
    l.foldl (fun removed e =>
      if e.2 = .dir ∧ e.1.length = 10 ∧ countDash e.1 = 2 ∧ (parseYMD e.1).isSome
      then removed ++ [e.1] else removed) acc
    = acc ++ (l.filter (fun e =>
        decide (e.2 = .dir ∧ e.1.length = 10 ∧ countDash e.1 = 2 ∧ (parseYMD e.1).isSome))).map
          (fun e => e.1) := by
  induction l with
  | nil => intro acc; simp
  | cons x xs ih =>
      intro acc
      by_cases h : x.2 = .dir ∧ x.1.length = 10 ∧ countDash x.1 = 2 ∧ (parseYMD x.1).isSome
      · simp [List.foldl_cons, List.filter_cons, h, ih]
      · simp [List.foldl_cons, List.filter_cons, h, ih]

/-- C7 (amended): the retention pass deletes exactly the directories whose names
match the date pattern, regardless of age. -/
theorem claim_C7 (listing : List (String × FsEntry)) :
    cleanup_old_backups listing =
      (listing.filter (fun e =>
        decide (e.2 = .dir ∧ e.1.length = 10 ∧ countDash e.1 = 2 ∧ (parseYMD e.1).isSome))).map
          (fun e => e.1) := by
  unfold cleanup_old_backups
  simpa using cleanup_foldl_char listing []

/-- C7 counterexample: a directory dated far in the future — younger than any
retention window at any plausible run date — is deleted anyway. -/
theorem claim_C7_counterexample :
    cleanup_old_backups [("9999-12-31", .dir)] = ["9999-12-31"] := by decide

/-! ### C9 -/


theorem claim_C9_counterexample :
    "photo_link_1.jpg" = "photo_link_" ++ toString 1 ++ ".jpg" ∧
    (get_image_priority "photo_link_1.jpg").1 = 3 ∧
    (get_image_priority "photo_link_1.jpg").1 ≠ 4 := by decide

/-- C9 (amended): the explicit rule table of `get_image_priority`, plus the fact that
the engine's own `photo_link_N.jpg` placeholders land in class 3 (their length exceeds
15), except that an `N` containing `202` is read as a date-like name (class 1). -/
theorem claim_C9 :
    (∀ f : String, (["202", "kakao", "img_", "dsc_", "photo_202"].any
        (fun k => strContains (strLower f) k)) = true → (get_image_priority f).1 = 1)
  ∧ (∀ f : String, (["202", "kakao", "img_", "dsc_", "photo_202"].any
        (fun k => strContains (strLower f) k)) = false →
      strContains (strLower f) "representative" = true → (get_image_priority f).1 = 2)
  ∧ (∀ f : String, (["202", "kakao", "img_", "dsc_", "photo_202"].any
        (fun k => strContains (strLower f) k)) = false →
      strContains (strLower f) "representative" = false →
      (pyStarts (strLower f) "photo_" = false ∨ 15 < f.length) →
      (get_image_priority f).1 = 3)
  ∧ (∀ f : String, (["202", "kakao", "img_", "dsc_", "photo_202"].any
        (fun k => strContains (strLower f) k)) = false →
      strContains (strLower f) "representative" = false →
      pyStarts (strLower f) "photo_" = true → f.length ≤ 15 →
      (get_image_priority f).1 = 4)
  ∧ (∀ n : Nat, n < 100 → (get_image_priority ("photo_link_" ++ toString (n + 1) ++ ".jpg")).1 = 3)
  ∧ (get_image_priority "photo_link_202.jpg").1 = 1 := by
  refine ⟨?_, ?_, ?_, ?_, by decide, by decide⟩
  · intro f h
    simp only [get_image_priority]
    rw [if_pos h]
  · intro f h1 h2
    simp only [get_image_priority]
    rw [if_neg (by simp [h1]), if_pos h2]
  · intro f h1 h2 h3
    simp only [get_image_priority]
    rw [if_neg (by simp [h1]), if_neg (by simp [h2]), if_pos]
    rcases h3 with h | h
    · exact Or.inl (by simp [h])
    · exact Or.inr h
  · intro f h1 h2 h3 h4
    simp only [get_image_priority]
    rw [if_neg (by simp [h1]), if_neg (by simp [h2]), if_neg]
    simp [h3]
    omega

/-! ### C2 -/

/-! ### C2 helpers -/

theorem str_ne_append_tmp (s : String) : s ≠ s ++ ".tmp" := by
  intro h
  have h2 := congrArg String.length h
  rw [String.length_append] at h2
  have h3 : (".tmp" : String).length = 4 := rfl
  rw [h3] at h2
  omega

theorem fLookup_fWrite_ne {n m : String} (c : DirFiles) (b : List Nat) (h : n ≠ m) :
    fLookup (fWrite c m b) n = fLookup c n := by
  induction c with
  | nil => simp [fWrite, fLookup, Ne.symm h]
  | cons e tl ih =>
      by_cases he : e.1 = m
      · simp [fWrite, fLookup, he, Ne.symm h, h]
      · by_cases hn : e.1 = n <;> simp [fWrite, fLookup, he, hn, Ne.symm h, h, ih]

theorem fLookup_fRemove_ne {n m : String} (c : DirFiles) (h : n ≠ m) :
    fLookup (fRemove c m) n = fLookup c n := by
  induction c with
  | nil => simp [fRemove, fLookup]
  | cons e tl ih =>
      by_cases he : e.1 = m
      · have hn : e.1 ≠ n := by rw [he]; exact Ne.symm h
        simp [fRemove, fLookup, he, hn, Ne.symm h]
      · by_cases hn : e.1 = n <;> simp [fRemove, fLookup, he, hn, Ne.symm h, h, ih]

theorem fRemove_fWrite (c : DirFiles) (m : String) (b : List Nat) :
    fRemove (fWrite c m b) m = fRemove c m := by
  induction c with
  | nil => simp [fWrite, fRemove]
  | cons e tl ih =>
      by_cases he : e.1 = m
      · simp [fWrite, fRemove, he]
      · simp [fWrite, fRemove, he, ih]

/-- Branch analysis of the download block: either the step succeeded or was the
URL-hash skip, or else the metadata is untouched, the final filename's entry is
untouched, and in the undersized case the net effect on the directory is exactly
the removal of a (stale) `.tmp` entry. -/
theorem downloadStep_failure_frame (rid : String) (cand : Candidate) (contents : DirFiles)
    (meta : Meta) (net : String → Dl) (now : Nat) :
    ((downloadStep rid cand contents meta net now).outcome = .ok ∨
     (downloadStep rid cand contents meta net now).outcome = .skipped) ∨
    ((downloadStep rid cand contents meta net now).meta = meta ∧
     (∀ n, (downloadStep rid cand contents meta net now).fname = some n →
        fLookup (downloadStep rid cand contents meta net now).contents n = fLookup contents n) ∧
     ((downloadStep rid cand contents meta net now).outcome = .undersized →
        ∀ n, (downloadStep rid cand contents meta net now).fname = some n →
          (downloadStep rid cand contents meta net now).contents =
            fRemove contents (n ++ ".tmp"))) := by
  rcases hnm : resolveFinalName cand now with _ | filename
  · right
    unfold downloadStep
    rw [hnm]
    exact ⟨rfl, fun n hn => by exact absurd hn (by simp),
      fun hu => by exact absurd hu (by simp)⟩
  · unfold downloadStep
    rw [hnm]
    dsimp only
    split
    · left; right; rfl
    · rcases hnet : net cand.url with _ | ⟨status, body, mid⟩
      · right
        exact ⟨rfl, fun n _ => rfl, fun hu => by exact absurd hu (by simp)⟩
      · dsimp only
        split
        · split
          · -- mid-download exception: the temp file is written and stays
            right
            refine ⟨rfl, ?_, fun hu => by exact absurd hu (by simp)⟩
            intro n hn
            replace hn := Option.some.inj hn
            subst hn
            exact fLookup_fWrite_ne contents body (str_ne_append_tmp _)
          · split
            · -- success
              split
              · left; left; rfl
              · left; left; rfl
            · -- undersized payload
              right
              refine ⟨rfl, ?_, ?_⟩
              · intro n hn
                replace hn := Option.some.inj hn
                subst hn
                rw [fRemove_fWrite]
                exact fLookup_fRemove_ne contents (str_ne_append_tmp _)
              · intro _ n hn
                replace hn := Option.some.inj hn
                subst hn
                rw [fRemove_fWrite]
        · -- non-success HTTP status
          right
          exact ⟨rfl, fun n _ => rfl, fun hu => by exact absurd hu (by simp)⟩

/-- C2 (amended): any failing download attempt leaves the image metadata untouched,
creates or alters nothing under the final filename; the temporary artifact is removed
in the undersized-payload case (the directory's only change is that a stale `.tmp`
entry, if any, is gone), but a mid-download exception leaves the `.tmp` file behind. -/
theorem claim_C2 (rid : String) (cand : Candidate) (contents : DirFiles) (meta : Meta)
    (net : String → Dl) (now : Nat)
    (h1 : (downloadStep rid cand contents meta net now).outcome ≠ DlOutcome.ok)
    (h2 : (downloadStep rid cand contents meta net now).outcome ≠ DlOutcome.skipped) :
    (downloadStep rid cand contents meta net now).meta = meta ∧
    (∀ n, (downloadStep rid cand contents meta net now).fname = some n →
       fLookup (downloadStep rid cand contents meta net now).contents n = fLookup contents n) ∧
    ((downloadStep rid cand contents meta net now).outcome = .undersized →
       ∀ n, (downloadStep rid cand contents meta net now).fname = some n →
         (downloadStep rid cand contents meta net now).contents =
           fRemove contents (n ++ ".tmp")) := by
  rcases downloadStep_failure_frame rid cand contents meta net now with (h | h) | h
  · exact absurd h h1
  · exact absurd h h2
  · exact h

theorem claim_C2_witness :
    (downloadStep "r1" ⟨"http://x.com/a.jpg", "a.jpg", "link", 2⟩
        [("a.jpg", [3, 3, 3])] [] (fun _ => .resp 404 [] false) 0).meta = [] ∧
    (∀ n, (downloadStep "r1" ⟨"http://x.com/a.jpg", "a.jpg", "link", 2⟩
        [("a.jpg", [3, 3, 3])] [] (fun _ => .resp 404 [] false) 0).fname = some n →
       fLookup (downloadStep "r1" ⟨"http://x.com/a.jpg", "a.jpg", "link", 2⟩
        [("a.jpg", [3, 3, 3])] [] (fun _ => .resp 404 [] false) 0).contents n =
       fLookup [("a.jpg", [3, 3, 3])] n) ∧
    ((downloadStep "r1" ⟨"http://x.com/a.jpg", "a.jpg", "link", 2⟩
        [("a.jpg", [3, 3, 3])] [] (fun _ => .resp 404 [] false) 0).outcome =
          .undersized →
       ∀ n, (downloadStep "r1" ⟨"http://x.com/a.jpg", "a.jpg", "link", 2⟩
        [("a.jpg", [3, 3, 3])] [] (fun _ => .resp 404 [] false) 0).fname = some n →
         (downloadStep "r1" ⟨"http://x.com/a.jpg", "a.jpg", "link", 2⟩
        [("a.jpg", [3, 3, 3])] [] (fun _ => .resp 404 [] false) 0).contents =
           fRemove [("a.jpg", [3, 3, 3])] (n ++ ".tmp")) :=
  claim_C2 "r1" ⟨"http://x.com/a.jpg", "a.jpg", "link", 2⟩
    [("a.jpg", [3, 3, 3])] [] (fun _ => .resp 404 [] false) 0
    (by decide) (by decide)

/-- C2 counterexample: a download that raises mid-stream (truncated body) leaves the
temporary `.tmp` artifact on disk, contradicting "the temporary artifact is removed"
for every failure; the previously existing final file does survive unchanged. -/
theorem claim_C2_counterexample :
    (downloadStep "rec1" ⟨"http://img.example.com/a.jpg", "a.jpg", "representative", 1⟩
        [("a.jpg", [1, 1, 1])] []
        (fun _ => .resp 200 ([2, 2]) true) 7).outcome = DlOutcome.midExn ∧
    fLookup (downloadStep "rec1" ⟨"http://img.example.com/a.jpg", "a.jpg", "representative", 1⟩
        [("a.jpg", [1, 1, 1])] []
        (fun _ => .resp 200 ([2, 2]) true) 7).contents "a.jpg.tmp"
      = some ([2, 2]) ∧
    fLookup (downloadStep "rec1" ⟨"http://img.example.com/a.jpg", "a.jpg", "representative", 1⟩
        [("a.jpg", [1, 1, 1])] []
        (fun _ => .resp 200 ([2, 2]) true) 7).contents "a.jpg"
      = some ([1, 1, 1]) := by decide

/-! ### C4 -/

/-! ### C4 helpers: the head of the stable sort is the first minimizer -/

theorem pyFileLe_refl (a : ExFile) : pyFileLe a a := by unfold pyFileLe; omega

theorem pyFileLe_total (a b : ExFile) : pyFileLe a b ∨ pyFileLe b a := by
  unfold pyFileLe; omega

theorem pyFileLe_trans {a b c : ExFile} (h1 : pyFileLe a b) (h2 : pyFileLe b c) :
    pyFileLe a c := by
  unfold pyFileLe at *; omega

theorem pickBest_eq_none_iff (l : List ExFile) : pickBest l = none ↔ l = [] := by
  cases l with
  | nil => simp [pickBest]
  | cons x xs =>
      simp only [pickBest]
      rcases pickBest xs with _ | b
      · simp
      · by_cases h : pyFileLe x b <;> simp [h]

theorem head?_insertionSort (l : List ExFile) :
    (l.insertionSort pyFileLe).head? = pickBest l := by
  induction l with
  | nil => rfl
  | cons x xs ih =>
      rw [List.insertionSort]
      rcases h : List.insertionSort pyFileLe xs with _ | ⟨y, ys⟩
      · rw [h] at ih
        simp only [pickBest, List.orderedInsert, ← ih]
        rfl
      · rw [h] at ih
        simp only [pickBest, ← ih, List.orderedInsert]
        by_cases hle : pyFileLe x y <;> simp [hle]

theorem pickBest_mem : ∀ {l : List ExFile} {b : ExFile}, pickBest l = some b → b ∈ l := by
  intro l
  induction l with
  | nil => intro b h; simp [pickBest] at h
  | cons x xs ih =>
      intro b h
      simp only [pickBest] at h
      rcases hx : pickBest xs with _ | b'
      · simp only [hx] at h
        simp at h
        simp [h]
      · simp only [hx] at h
        by_cases hle : pyFileLe x b'
        · rw [if_pos hle] at h
          simp at h
          simp [h]
        · rw [if_neg hle] at h
          simp at h
          subst h
          exact List.mem_cons_of_mem _ (ih hx)

theorem pickBest_min : ∀ {l : List ExFile} {b : ExFile}, pickBest l = some b →
    ∀ e ∈ l, pyFileLe b e := by
  intro l
  induction l with
  | nil => intro b h; simp [pickBest] at h
  | cons x xs ih =>
      intro b h
      simp only [pickBest] at h
      rcases hx : pickBest xs with _ | b'
      · simp only [hx] at h
        simp at h
        subst h
        have hnil : xs = [] := (pickBest_eq_none_iff xs).mp hx
        subst hnil
        intro e he
        simp at he
        subst he
        exact pyFileLe_refl _
      · simp only [hx] at h
        by_cases hle : pyFileLe x b'
        · rw [if_pos hle] at h
          simp at h
          subst h
          intro e he
          rcases List.mem_cons.mp he with he | he
          · subst he; exact pyFileLe_refl _
          · exact pyFileLe_trans hle (ih hx e he)
        · rw [if_neg hle] at h
          simp at h
          subst h
          intro e he
          rcases List.mem_cons.mp he with he | he
          · rw [he]
            rcases pyFileLe_total x b' with h' | h'
            · exact absurd h' hle
            · exact h'
          · exact ih hx e he

theorem pickBest_first : ∀ {l : List ExFile} {b : ExFile}, pickBest l = some b →
    ∃ pre post, l = pre ++ b :: post ∧ ∀ e ∈ pre, ¬ pyFileLe e b := by
  intro l
  induction l with
  | nil => intro b h; simp [pickBest] at h
  | cons x xs ih =>
      intro b h
      simp only [pickBest] at h
      rcases hx : pickBest xs with _ | b'
      · simp only [hx] at h
        simp at h
        subst h
        exact ⟨[], xs, rfl, by simp⟩
      · simp only [hx] at h
        by_cases hle : pyFileLe x b'
        · rw [if_pos hle] at h
          simp at h
          subst h
          exact ⟨[], xs, rfl, by simp⟩
        · rw [if_neg hle] at h
          simp at h
          subst h
          obtain ⟨pre, post, heq, hpre⟩ := ih hx
          refine ⟨x :: pre, post, by rw [heq, List.cons_append], ?_⟩
          intro e he
          rcases List.mem_cons.mp he with he | he
          · subst he; exact hle
          · exact hpre e he

theorem nodup_name_unique {l : List ExFile} (hnd : (l.map (fun f => f.filename)).Nodup)
    {x y : ExFile} (hx : x ∈ l) (hy : y ∈ l) (hname : x.filename = y.filename) : x = y := by
  induction l with
  | nil => simp at hx
  | cons a tl ih =>
      simp only [List.map_cons, List.nodup_cons] at hnd
      rcases List.mem_cons.mp hx with hx' | hx' <;> rcases List.mem_cons.mp hy with hy' | hy'
      · rw [hx', hy']
      · exfalso
        subst hx'
        exact hnd.1 (by rw [hname]; exact List.mem_map.mpr ⟨y, hy', rfl⟩)
      · exfalso
        subst hy'
        exact hnd.1 (by rw [← hname]; exact List.mem_map.mpr ⟨x, hx', rfl⟩)
      · exact ih hnd.2 hx' hy'

theorem filter_eq_singleton {α : Type} [DecidableEq α] {l : List α} {e0 : α} {p : α → Bool}
    (hnd : l.Nodup) (he : e0 ∈ l) (hp : ∀ e ∈ l, p e = true ↔ e = e0) :
    l.filter p = [e0] := by
  induction l with
  | nil => simp at he
  | cons x xs ih =>
      simp only [List.nodup_cons] at hnd
      rcases List.mem_cons.mp he with he' | he'
      · subst he'
        rw [List.filter_cons, if_pos ((hp e0 (List.mem_cons_self e0 xs)).mpr rfl)]
        have : xs.filter p = [] := by
          rw [List.filter_eq_nil_iff]
          intro a ha hpa
          have := (hp a (List.mem_cons_of_mem _ ha)).mp hpa
          subst this
          exact hnd.1 ha
        rw [this]
      · have hx : ¬ p x = true := by
          intro hpx
          have := (hp x (by simp)).mp hpx
          subst this
          exact hnd.1 he'
        rw [List.filter_cons, if_neg (by simpa using hx)]
        exact ih hnd.2 he' (fun e hee => hp e (List.mem_cons_of_mem _ hee))

theorem nodup_map_unique {α β : Type} {f : α → β} : ∀ {l : List α},
    (l.map f).Nodup → ∀ {x y : α}, x ∈ l → y ∈ l → f x = f y → x = y := by
  intro l
  induction l with
  | nil => intro _ x y hx; simp at hx
  | cons a tl ih =>
      intro hnd x y hx hy hf
      simp only [List.map_cons, List.nodup_cons] at hnd
      rcases List.mem_cons.mp hx with hx' | hx' <;> rcases List.mem_cons.mp hy with hy' | hy'
      · rw [hx', hy']
      · exfalso
        subst hx'
        exact hnd.1 (by rw [hf]; exact List.mem_map.mpr ⟨y, hy', rfl⟩)
      · exfalso
        subst hy'
        exact hnd.1 (by rw [← hf]; exact List.mem_map.mpr ⟨x, hx', rfl⟩)
      · exact ih hnd.2 hx' hy' hf

/-- C4 (amended): on a directory of `N ≥ 1` valid image files with distinct names,
one cleaner pass keeps exactly one file: the first file in listing order among those
of minimal priority class and, within that class, maximal size.  (Ties in class and
size fall back to listing order; the filename-length component of the priority tuple
is not consulted.) -/
theorem claim_C4 (contents : DirFiles) (hne : contents ≠ [])
    (hvalid : ∀ e ∈ contents, isImageExt e.1 = true ∧ 1000 < e.2.length)
    (hnodup : (contents.map (fun e => e.1)).Nodup) :
    ∃ e0, e0 ∈ contents ∧
      (clean_existing_duplicates contents).2.2 = [e0] ∧
      (clean_existing_duplicates contents).1 = some e0.1 ∧
      (clean_existing_duplicates contents).2.1 = contents.length - 1 ∧
      (∀ e ∈ contents, pyFileLe (toExFile e0) (toExFile e)) ∧
      ∃ pre post, contents = pre ++ e0 :: post ∧
        ∀ e ∈ pre, ¬ pyFileLe (toExFile e) (toExFile e0) := by
  have hfil : contents.filter (fun e => isImageExt e.1 && decide (1000 < e.2.length))
      = contents := by
    rw [List.filter_eq_self]
    intro e he
    rcases hvalid e he with ⟨h1, h2⟩
    simp [h1, h2]
  have hmap : (fun (e : String × List Nat) => ExFile.mk e.1 e.2.length (get_image_priority e.1))
      = toExFile := rfl
  have hperm := List.perm_insertionSort pyFileLe (contents.map toExFile)
  rcases hs : (contents.map toExFile).insertionSort pyFileLe with _ | ⟨best, rest⟩
  · rw [hs] at hperm
    exfalso
    have hmapnil : contents.map toExFile = [] := hperm.symm.eq_nil
    exact hne (List.map_eq_nil_iff.mp hmapnil)
  · rw [hs] at hperm
    have hpb : pickBest (contents.map toExFile) = some best := by
      rw [← head?_insertionSort, hs]; rfl
    obtain ⟨preE, postE, hdecomp, hpreE⟩ := pickBest_first hpb
    obtain ⟨l1, l2, hc, h1, h2⟩ := List.map_eq_append_iff.mp hdecomp
    obtain ⟨e0, l2', hc2, he0, h2'⟩ := List.map_eq_cons_iff.mp h2
    subst hc2
    have he0mem : e0 ∈ contents := by rw [hc]; exact List.mem_append_right _ (by simp)
    have hclean : clean_existing_duplicates contents =
        (some best.filename, rest.length,
         contents.filter (fun e => ¬ e.1 ∈ rest.map (fun f => f.filename))) := by
      unfold clean_existing_duplicates
      rw [hfil, hmap]
      simp only [hs]
    have hnodupEx : (contents.map toExFile).Nodup := by
      have hcomp : (contents.map toExFile).map (fun f => f.filename)
          = contents.map (fun e => e.1) := by
        rw [List.map_map]; rfl
      exact List.Nodup.of_map _ (by rw [hcomp]; exact hnodup)
    have hsortNodup : (best :: rest).Nodup := hperm.nodup_iff.mpr hnodupEx
    have hbestNotRest : ¬ best ∈ rest := (List.nodup_cons.mp hsortNodup).1
    have hentryNodup : contents.Nodup := List.Nodup.of_map _ hnodup
    -- membership in the kept list is exactly being e0
    have hp : ∀ e ∈ contents,
        (decide (¬ e.1 ∈ rest.map (fun f => f.filename)) = true) ↔ e = e0 := by
      intro e he
      rw [decide_eq_true_iff]
      constructor
      · intro hnot
        by_contra hneq
        apply hnot
        have hmem : toExFile e ∈ best :: rest :=
          hperm.mem_iff.mpr (List.mem_map.mpr ⟨e, he, rfl⟩)
        rcases List.mem_cons.mp hmem with hb | hr
        · exfalso
          apply hneq
          apply nodup_map_unique hnodup he he0mem
          have : (toExFile e).filename = (toExFile e0).filename := by rw [hb, he0]
          exact this
        · exact List.mem_map.mpr ⟨toExFile e, hr, rfl⟩
      · intro heq
        subst heq
        intro hmem
        obtain ⟨f, hf, hfn⟩ := List.mem_map.mp hmem
        have hfm : f ∈ contents.map toExFile := hperm.mem_iff.mp (List.mem_cons_of_mem _ hf)
        obtain ⟨ef, hefm, hefeq⟩ := List.mem_map.mp hfm
        have : ef = e := by
          apply nodup_map_unique hnodup hefm he
          calc ef.1 = (toExFile ef).filename := rfl
            _ = f.filename := by rw [hefeq]
            _ = e.1 := hfn
        subst this
        rw [← hefeq, he0] at hf
        exact hbestNotRest hf
    refine ⟨e0, he0mem, ?_, ?_, ?_, ?_, ?_⟩
    · rw [hclean]
      exact filter_eq_singleton hentryNodup he0mem hp
    · rw [hclean]
      have : best.filename = e0.1 := by rw [← he0]; rfl
      simp [this]
    · rw [hclean]
      have hlen := hperm.length_eq
      simp only [List.length_cons, List.length_map] at hlen
      simp
      omega
    · intro e he
      have := pickBest_min hpb (toExFile e) (List.mem_map.mpr ⟨e, he, rfl⟩)
      rw [he0]
      exact this
    · refine ⟨l1, l2', hc, ?_⟩
      intro e he
      rw [he0]
      have : toExFile e ∈ preE := by rw [← h1]; exact List.mem_map.mpr ⟨e, he, rfl⟩
      exact hpreE _ this

theorem claim_C4_witness :
    ∃ e0, e0 ∈ [("IMG_1.jpg", List.replicate 1001 (7:Nat)), ("photo_1.jpg", List.replicate 1600 7)] ∧
      (clean_existing_duplicates
        [("IMG_1.jpg", List.replicate 1001 7), ("photo_1.jpg", List.replicate 1600 7)]).2.2 = [e0] ∧
      (clean_existing_duplicates
        [("IMG_1.jpg", List.replicate 1001 7), ("photo_1.jpg", List.replicate 1600 7)]).1 = some e0.1 ∧
      (clean_existing_duplicates
        [("IMG_1.jpg", List.replicate 1001 7), ("photo_1.jpg", List.replicate 1600 7)]).2.1 =
        [("IMG_1.jpg", List.replicate 1001 (7:Nat)), ("photo_1.jpg", List.replicate 1600 7)].length - 1 ∧
      (∀ e ∈ [("IMG_1.jpg", List.replicate 1001 (7:Nat)), ("photo_1.jpg", List.replicate 1600 7)],
        pyFileLe (toExFile e0) (toExFile e)) ∧
      ∃ pre post,
        [("IMG_1.jpg", List.replicate 1001 (7:Nat)), ("photo_1.jpg", List.replicate 1600 7)]
          = pre ++ e0 :: post ∧
        ∀ e ∈ pre, ¬ pyFileLe (toExFile e) (toExFile e0) :=
  claim_C4 [("IMG_1.jpg", List.replicate 1001 7), ("photo_1.jpg", List.replicate 1600 7)]
    (by decide)
    (by
      intro e he
      rcases List.mem_cons.mp he with h | h
      · subst h; exact ⟨by decide, by simp⟩
      · rcases List.mem_cons.mp h with h | h
        · subst h; exact ⟨by decide, by simp⟩
        · simp at h)
    (by decide)

/-- C4 counterexample: two valid files of the same priority class and the same size;
the claim's final tie-break would keep the shorter-named `a.jpg`, but the code keeps
whichever `os.listdir` returned first (`bb.jpg` here): the sort key ignores filename
length entirely. -/
theorem claim_C4_counterexample :
    (clean_existing_duplicates
        [("bb.jpg", List.replicate 1001 (7:Nat)), ("a.jpg", List.replicate 1001 7)]).1
      = some "bb.jpg" ∧
    (clean_existing_duplicates
        [("bb.jpg", List.replicate 1001 (7:Nat)), ("a.jpg", List.replicate 1001 7)]).2.2
      = [("bb.jpg", List.replicate 1001 7)] ∧
    (get_image_priority "bb.jpg").1 = (get_image_priority "a.jpg").1 ∧
    "a.jpg".length < "bb.jpg".length := by decide

/-! ### C10 -/

/-! ### C10 helpers -/

theorem processView_updated_cases (remote : String → List Page) (acc : RunAcc) (v : ViewCfg) :
    (processView remote acc v).updatedViews = acc.updatedViews ∨
    (processView remote acc v).updatedViews = acc.updatedViews ++ [v.vname] := by
  rcases hoc : (fetchGo (remote v.vid)).2 with _ | _ | _
  · left; simp [processView, hoc]
  · by_cases hu : (compare_and_update_data acc.fs (fetchGo (remote v.vid)).1 v.filename).updated
    · right; simp [processView, hoc, hu]
    · left; simp [processView, hoc, hu]
  · by_cases hu : (compare_and_update_data acc.fs (fetchGo (remote v.vid)).1 v.filename).updated
    · right; simp [processView, hoc, hu]
    · left; simp [processView, hoc, hu]

theorem foldl_not_all_updated (remote : String → List Page) :
    ∀ (vs : List ViewCfg) (acc : RunAcc), ¬ "all" ∈ vs.map (fun v => v.vname) →
      ¬ "all" ∈ acc.updatedViews →
      ¬ "all" ∈ (vs.foldl (processView remote) acc).updatedViews := by
  intro vs
  induction vs with
  | nil => intro acc _ h2; simpa using h2
  | cons v vs ih =>
      intro acc h1 h2
      simp only [List.map_cons, List.mem_cons] at h1
      push_neg at h1
      simp only [List.foldl_cons]
      refine ih _ (by simpa using h1.2) ?_
      rcases processView_updated_cases remote acc v with h | h
      · rw [h]; exact h2
      · rw [h]; simp [List.mem_append, h2, h1.1]

/-- C10: when the change detection for the `all` view is Unchanged (and also when
its fetch raised), images are untouched in this run: the image tree and the image
metadata document are exactly as before and no image URL is fetched — regardless of
what the other views did. -/
theorem claim_C10 (st : SysState) (remote : String → List Page) (net : String → Dl)
    (now : Nat)
    (hres : (compare_and_update_data st.files
      (fetchGo (remote "viwyV15T4ihMpbDbr")).1 "all_properties.json").updated = false) :
    (backup_airtable_data true st remote net now).state.img = st.img ∧
    (backup_airtable_data true st remote net now).log.imageDownloads = [] := by
  have h1 : ¬ "all" ∈ (processView remote ⟨st.files, 0, 0, 0, [], [], []⟩
      ⟨"all", "viwyV15T4ihMpbDbr", "all_properties.json"⟩).updatedViews := by
    rcases hoc : (fetchGo (remote "viwyV15T4ihMpbDbr")).2 with _ | _ | _
    · simp [processView, hoc]
    · simp [processView, hoc, hres]
    · simp [processView, hoc, hres]
  have hnot : ¬ "all" ∈ (VIEWS.foldl (processView remote)
      ⟨st.files, 0, 0, 0, [], [], []⟩).updatedViews := by
    have heq : VIEWS.foldl (processView remote) ⟨st.files, 0, 0, 0, [], [], []⟩
        = [(⟨"reconstruction", "viwzEVzrr47fCbDNU", "reconstruction_properties.json"⟩ : ViewCfg),
           ⟨"high_yield", "viwxS4dKAcQWmB0Be", "high_yield_properties.json"⟩,
           ⟨"low_cost", "viwUKnawSP8SkV9Sx", "low_cost_properties.json"⟩].foldl
            (processView remote)
            (processView remote ⟨st.files, 0, 0, 0, [], [], []⟩
              ⟨"all", "viwyV15T4ihMpbDbr", "all_properties.json"⟩) := rfl
    rw [heq]
    exact foldl_not_all_updated remote _ _ (by decide) h1
  have hcond : ¬ ("all" ∈ (VIEWS.foldl (processView remote)
      ⟨st.files, 0, 0, 0, [], [], []⟩).updatedViews ∧
      (VIEWS.foldl (processView remote) ⟨st.files, 0, 0, 0, [], [], []⟩).allRecords ≠ []) :=
    fun h => hnot h.1
  unfold backup_airtable_data
  rw [if_neg (by simp)]
  dsimp only
  rw [if_neg hcond]
  exact ⟨rfl, rfl⟩

theorem claim_C10_witness :
    ((compare_and_update_data
        (fun n => if n = "all_properties.json" then some (.json (.arr .nil)) else none)
        (fetchGo ((fun vid => if vid = "viwyV15T4ihMpbDbr" then [Page.resp 200 [] false]
          else [Page.resp 200 [.obj (.cons "id" (.str "r1") .nil)] false]) "viwyV15T4ihMpbDbr")).1
        "all_properties.json").updated = false) ∧
    (backup_airtable_data true
      ⟨(fun n => if n = "all_properties.json" then some (.json (.arr .nil)) else none),
       ⟨[], .absent⟩⟩
      (fun vid => if vid = "viwyV15T4ihMpbDbr" then [Page.resp 200 [] false]
        else [Page.resp 200 [.obj (.cons "id" (.str "r1") .nil)] false])
      (fun _ => .exn) 0).state.img = ⟨[], .absent⟩ ∧
    (backup_airtable_data true
      ⟨(fun n => if n = "all_properties.json" then some (.json (.arr .nil)) else none),
       ⟨[], .absent⟩⟩
      (fun vid => if vid = "viwyV15T4ihMpbDbr" then [Page.resp 200 [] false]
        else [Page.resp 200 [.obj (.cons "id" (.str "r1") .nil)] false])
      (fun _ => .exn) 0).log.imageDownloads = [] := by
  refine ⟨by decide, ?_⟩
  exact claim_C10 _ _ _ _ (by decide)

/-! ### C8 -/

/-! ### C8 helpers: association-list frames and metadata key disjointness -/

theorem metaLookup_metaSet_ne {m : Meta} {k k' : String} {v : MVal} (h : k' ≠ k) :
    metaLookup (metaSet m k v) k' = metaLookup m k' := by
  induction m with
  | nil => simp [metaSet, metaLookup, h, Ne.symm h]
  | cons e tl ih =>
      by_cases he : e.1 = k
      · subst he
        simp [metaSet, metaLookup, h, Ne.symm h]
      · by_cases hn : e.1 = k' <;> simp [metaSet, metaLookup, he, hn, h, ih]

theorem dirLookup_dirSet_self (d : List (String × DirFiles)) (rid : String) (c : DirFiles) :
    dirLookup (dirSet d rid c) rid = some c := by
  induction d with
  | nil => simp [dirSet, dirLookup]
  | cons e tl ih =>
      by_cases he : e.1 = rid
      · simp [dirSet, dirLookup, he]
      · simp [dirSet, dirLookup, he, ih]

theorem dirLookup_dirSet_ne {d : List (String × DirFiles)} {rid rid' : String} {c : DirFiles}
    (h : rid' ≠ rid) : dirLookup (dirSet d rid c) rid' = dirLookup d rid' := by
  induction d with
  | nil => simp [dirSet, dirLookup, Ne.symm h]
  | cons e tl ih =>
      by_cases he : e.1 = rid
      · subst he
        simp [dirSet, dirLookup, Ne.symm h]
      · by_cases hn : e.1 = rid' <;> simp [dirSet, dirLookup, he, hn, h, Ne.symm h, ih]

theorem dirLookup_append_one (d : List (String × DirFiles)) (rid rid' : String) (c : DirFiles) :
    dirLookup (d ++ [(rid, c)]) rid' =
      (dirLookup d rid').orElse (fun _ => if rid = rid' then some c else none) := by
  induction d with
  | nil => simp [dirLookup]
  | cons e tl ih =>
      by_cases hn : e.1 = rid' <;> simp [dirLookup, hn, ih]

theorem str_append_right_cancel {a b s : String} (h : a ++ s = b ++ s) : a = b := by
  apply String.ext
  have hd := congrArg String.data h
  rw [String.data_append, String.data_append] at hd
  exact List.append_cancel_right hd

theorem key_append_ne {a b s t : String} (hs : ¬ s.data <:+ t.data)
    (ht : ¬ t.data <:+ s.data) : a ++ s ≠ b ++ t := by
  intro h
  have hd := congrArg String.data h
  rw [String.data_append, String.data_append] at hd
  have h1 : s.data <:+ (b.data ++ t.data) := hd ▸ List.suffix_append a.data s.data
  have h2 : t.data <:+ (b.data ++ t.data) := List.suffix_append b.data t.data
  rcases List.suffix_or_suffix_of_suffix h1 h2 with h' | h'
  · exact hs h'
  · exact ht h'

theorem recKey_ne {rid2 rid : String} (h : rid2 ≠ rid) {s t : String}
    (hs : s ∈ ["_hash", "_filename", "_type", "_optimized"])
    (ht : t ∈ ["_hash", "_filename", "_type", "_optimized"]) :
    rid2 ++ s ≠ rid ++ t := by
  by_cases hst : s = t
  · subst hst
    intro heq
    exact h (str_append_right_cancel heq)
  · have hfact : ∀ s' ∈ ["_hash", "_filename", "_type", "_optimized"],
        ∀ t' ∈ ["_hash", "_filename", "_type", "_optimized"], s' ≠ t' →
          ¬ s'.data <:+ t'.data := by decide
    exact key_append_ne (hfact s hs t ht hst) (hfact t ht s hs (Ne.symm hst))

theorem recKey_ne_last {rid s : String}
    (hs : s ∈ ["_hash", "_filename", "_type", "_optimized"]) :
    rid ++ s ≠ "last_optimization" := by
  intro h
  have hd := congrArg String.data h
  rw [String.data_append] at hd
  have h1 : s.data <:+ ("last_optimization").data := hd ▸ List.suffix_append rid.data s.data
  have hfact : ∀ s' ∈ ["_hash", "_filename", "_type", "_optimized"],
      ¬ s'.data <:+ ("last_optimization").data := by decide
  exact hfact s hs h1

theorem recKey_ne_stats {rid s : String}
    (hs : s ∈ ["_hash", "_filename", "_type", "_optimized"]) :
    rid ++ s ≠ "optimization_stats" := by
  intro h
  have hd := congrArg String.data h
  rw [String.data_append] at hd
  have h1 : s.data <:+ ("optimization_stats").data := hd ▸ List.suffix_append rid.data s.data
  have hfact : ∀ s' ∈ ["_hash", "_filename", "_type", "_optimized"],
      ¬ s'.data <:+ ("optimization_stats").data := by decide
  exact hfact s hs h1

/-- The download block only writes metadata keys `rid ++ {_hash,_filename,_type,_optimized}`. -/
theorem downloadStep_meta_keys (rid2 : String) (cand : Candidate) (contents : DirFiles)
    (meta : Meta) (net : String → Dl) (now : Nat) (k : String)
    (h1 : k ≠ rid2 ++ "_hash") (h2 : k ≠ rid2 ++ "_filename")
    (h3 : k ≠ rid2 ++ "_type") (h4 : k ≠ rid2 ++ "_optimized") :
    metaLookup (downloadStep rid2 cand contents meta net now).meta k = metaLookup meta k := by
  rcases hnm : resolveFinalName cand now with _ | filename
  · unfold downloadStep
    rw [hnm]
  · unfold downloadStep
    rw [hnm]
    dsimp only
    split
    · rfl
    · rcases net cand.url with _ | ⟨status, body, mid⟩
      · rfl
      · dsimp only
        split
        · split
          · rfl
          · split
            · split <;>
                (dsimp only;
                 rw [metaLookup_metaSet_ne h4, metaLookup_metaSet_ne h3,
                   metaLookup_metaSet_ne h2, metaLookup_metaSet_ne h1])
            · rfl
        · rfl

/-- Processing a record whose id is not `rid` (or is unusable) never touches `rid`'s
directory nor `rid`'s metadata keys. -/
theorem processRecord_frame (net : String → Dl) (now : Nat) (acc : ImgAcc) (r : Json)
    (rid : String)
    (hid : ∀ rid2, getField r "id" = some (.str rid2) → rid2 ≠ rid) :
    (∀ s ∈ ["_hash", "_filename", "_type", "_optimized"],
      metaLookup (processRecord net now acc r).meta (rid ++ s) =
        metaLookup acc.meta (rid ++ s)) ∧
    dirLookup (processRecord net now acc r).dirs rid = dirLookup acc.dirs rid := by
  rcases hfld : getField r "id" with _ | j
  · unfold processRecord
    rw [hfld]
    exact ⟨fun s _ => rfl, rfl⟩
  · rcases j with _ | b | n | rid2 | es | es
    case str =>
      by_cases hrid2 : rid2 = ""
      · subst hrid2
        unfold processRecord
        rw [hfld]
        dsimp only
        rw [if_pos rfl]
        exact ⟨fun s _ => rfl, rfl⟩
      · have hne : rid2 ≠ rid := hid rid2 hfld
        have hne' : rid ≠ rid2 := Ne.symm hne
        unfold processRecord
        rw [hfld]
        dsimp only
        rw [if_neg hrid2]
        have hdirs0 : ∀ (d0 : List (String × DirFiles)), dirLookup
            (if (dirLookup acc.dirs rid2).isSome = true then acc.dirs
             else acc.dirs ++ [(rid2, [])]) rid = dirLookup acc.dirs rid := by
          intro _
          split
          · rfl
          · rw [dirLookup_append_one]
            rcases h : dirLookup acc.dirs rid with _ | c
            · simp [Option.orElse, hne]
            · simp [Option.orElse]
        split
        · -- existing best file kept: two metadata writes on rid2 keys
          constructor
          · intro s hsmem
            dsimp only
            rw [metaLookup_metaSet_ne (recKey_ne hne' hsmem (by simp)),
              metaLookup_metaSet_ne (recKey_ne hne' hsmem (by simp))]
          · dsimp only
            rw [dirLookup_dirSet_ne hne']
            exact hdirs0 acc.dirs
        · split
          · -- no candidates
            constructor
            · intro s _
              rfl
            · dsimp only
              rw [dirLookup_dirSet_ne hne']
              exact hdirs0 acc.dirs
          · -- download step for rid2
            constructor
            · intro s hsmem
              dsimp only
              rw [downloadStep_meta_keys _ _ _ _ _ _ _
                (recKey_ne hne' hsmem (by simp)) (recKey_ne hne' hsmem (by simp))
                (recKey_ne hne' hsmem (by simp)) (recKey_ne hne' hsmem (by simp))]
            · dsimp only
              rw [dirLookup_dirSet_ne hne', dirLookup_dirSet_ne hne']
              exact hdirs0 acc.dirs
    all_goals
      (unfold processRecord; rw [hfld]; exact ⟨fun s _ => rfl, rfl⟩)

/-- Processing a record with a usable id, no image candidates and no existing
directory: the only effect relevant to the claim is creation of the empty directory. -/
theorem processRecord_nocand (net : String → Dl) (now : Nat) (acc : ImgAcc) (r : Json)
    (rid : String)
    (hid : getField r "id" = some (.str rid)) (hrid : rid ≠ "")
    (hnc : extractCandidates (getFieldD r "fields" (.obj .nil)) = [])
    (hfresh : dirLookup acc.dirs rid = none) :
    (processRecord net now acc r).meta = acc.meta ∧
    dirLookup (processRecord net now acc r).dirs rid = some [] := by
  unfold processRecord
  rw [hid]
  dsimp only
  rw [if_neg hrid]
  have hdirs0 : (if (dirLookup acc.dirs rid).isSome = true then acc.dirs
      else acc.dirs ++ [(rid, [])]) = acc.dirs ++ [(rid, [])] := by
    rw [hfresh]
    rfl
  rw [hdirs0]
  have hcont : dirLookup (acc.dirs ++ [(rid, [])]) rid = some [] := by
    rw [dirLookup_append_one, hfresh]
    simp [Option.orElse]
  rw [hcont]
  have hcl : clean_existing_duplicates ((some ([] : DirFiles)).getD []) = (none, 0, []) := rfl
  rw [hcl]
  rw [hnc]
  exact ⟨rfl, dirLookup_dirSet_self _ _ _⟩

theorem foldl_processRecord_frame (net : String → Dl) (now : Nat) (rid : String) :
    ∀ (rs : List Json) (acc : ImgAcc),
    (∀ r' ∈ rs, ∀ rid2, getField r' "id" = some (.str rid2) → rid2 ≠ rid) →
    (∀ s ∈ ["_hash", "_filename", "_type", "_optimized"],
      metaLookup (rs.foldl (processRecord net now) acc).meta (rid ++ s) =
        metaLookup acc.meta (rid ++ s)) ∧
    dirLookup (rs.foldl (processRecord net now) acc).dirs rid = dirLookup acc.dirs rid := by
  intro rs
  induction rs with
  | nil => intro acc _; exact ⟨fun s _ => rfl, rfl⟩
  | cons r' rs ih =>
      intro acc hothers
      simp only [List.foldl_cons]
      have hstep := processRecord_frame net now acc r' rid
        (fun rid2 h => hothers r' (by simp) rid2 h)
      have hrest := ih (processRecord net now acc r')
        (fun r'' hr'' rid2 h => hothers r'' (List.mem_cons_of_mem _ hr'') rid2 h)
      refine ⟨?_, ?_⟩
      · intro s hs
        rw [hrest.1 s hs, hstep.1 s hs]
      · rw [hrest.2, hstep.2]

/-- C8 (amended): a record with zero image candidates gets no entry in the image
metadata document, but the image pass does create its (empty) directory under
`images/` — the `os.makedirs` at line 322 runs before candidates are extracted. -/
theorem claim_C8 (records : List Json) (st : ImgState) (net : String → Dl) (now : Nat)
    (l1 l2 : List Json) (r : Json) (rid : String)
    (hsplit : records = l1 ++ r :: l2)
    (hid : getField r "id" = some (.str rid)) (hrid : rid ≠ "")
    (hnc : extractCandidates (getFieldD r "fields" (.obj .nil)) = [])
    (hfresh : dirLookup st.dirs rid = none)
    (hothers : ∀ r' ∈ l1 ++ l2, ∀ rid2, getField r' "id" = some (.str rid2) → rid2 ≠ rid) :
    dirLookup (backup_property_images records st net now).1.dirs rid = some [] ∧
    ∀ s ∈ ["_hash", "_filename", "_type", "_optimized"],
      metaLookup (metaDocOf (backup_property_images records st net now).1.metaFile) (rid ++ s)
        = metaLookup (metaDocOf st.metaFile) (rid ++ s) := by
  subst hsplit
  unfold backup_property_images
  dsimp only
  rw [List.foldl_append, List.foldl_cons]
  have hoth1 : ∀ r' ∈ l1, ∀ rid2, getField r' "id" = some (.str rid2) → rid2 ≠ rid :=
    fun r' h => hothers r' (List.mem_append_left _ h)
  have hoth2 : ∀ r' ∈ l2, ∀ rid2, getField r' "id" = some (.str rid2) → rid2 ≠ rid :=
    fun r' h => hothers r' (List.mem_append_right _ h)
  constructor
  · rw [(foldl_processRecord_frame net now rid l2 _ hoth2).2,
      (processRecord_nocand net now _ r rid hid hrid hnc ?hfr1).2]
    case hfr1 =>
      rw [(foldl_processRecord_frame net now rid l1 _ hoth1).2]
      exact hfresh
  · intro s hs
    dsimp only [metaDocOf]
    rw [metaLookup_metaSet_ne (recKey_ne_stats hs), metaLookup_metaSet_ne (recKey_ne_last hs),
      (foldl_processRecord_frame net now rid l2 _ hoth2).1 s hs,
      (processRecord_nocand net now _ r rid hid hrid hnc ?hfr2).1,
      (foldl_processRecord_frame net now rid l1 _ hoth1).1 s hs]
    case hfr2 =>
      rw [(foldl_processRecord_frame net now rid l1 _ hoth1).2]
      exact hfresh

theorem claim_C8_witness :
    dirLookup (backup_property_images [Json.obj (.cons "id" (.str "rec1") .nil)]
        ⟨[], .absent⟩ (fun _ => Dl.exn) 3).1.dirs "rec1" = some [] ∧
    ∀ s ∈ ["_hash", "_filename", "_type", "_optimized"],
      metaLookup (metaDocOf (backup_property_images [Json.obj (.cons "id" (.str "rec1") .nil)]
          ⟨[], .absent⟩ (fun _ => Dl.exn) 3).1.metaFile) ("rec1" ++ s)
        = metaLookup (metaDocOf (MetaFile.absent)) ("rec1" ++ s) :=
  claim_C8 [Json.obj (.cons "id" (.str "rec1") .nil)] ⟨[], .absent⟩ (fun _ => Dl.exn) 3
    [] [] (Json.obj (.cons "id" (.str "rec1") .nil)) "rec1"
    rfl (by decide) (by decide) (by decide) rfl (by simp)

/-- C8 counterexample: a record with zero image candidates does get a directory
created under `images/` (empty), because `os.makedirs` runs before candidate
extraction; no metadata entry for the record is written. -/
theorem claim_C8_counterexample :
    (backup_property_images [Json.obj (.cons "id" (.str "rec9") .nil)]
        ⟨[], .absent⟩ (fun _ => Dl.exn) 3).1.dirs = [("rec9", [])] ∧
    metaLookup (metaDocOf (backup_property_images [Json.obj (.cons "id" (.str "rec9") .nil)]
        ⟨[], .absent⟩ (fun _ => Dl.exn) 3).1.metaFile) ("rec9" ++ "_filename") = none := by
  decide

/-! ### C1 -/

/-- C1: refuted by the code. With the previous snapshot of the `all` view holding
two records, a run in which page 1 of the `all` view succeeds (returning one record,
with an offset) and page 2 returns HTTP 500 still writes `all_properties.json`: the
partially fetched page list overwrites the previously stored snapshot instead of
being discarded, because the `break` on a non-200 status falls through to
`compare_and_update_data` with the pages collected so far. -/
theorem claim_C1 :
    (backup_airtable_data true
      ⟨(fun n =>
          if n = "all_properties.json" then
            some (.json (.arr (toJList [Json.obj (.cons "id" (.str "recA") .nil),
                                        Json.obj (.cons "id" (.str "recB") .nil)])))
          else if n = "reconstruction_properties.json" then some (.json (.arr .nil))
          else if n = "high_yield_properties.json" then some (.json (.arr .nil))
          else if n = "low_cost_properties.json" then some (.json (.arr .nil))
          else none),
        ⟨[], .absent⟩⟩
      (fun vid =>
        if vid = "viwyV15T4ihMpbDbr" then
          [Page.resp 200 [Json.obj (.cons "id" (.str "recA") .nil)] true,
           Page.resp 500 [] false]
        else [Page.resp 200 [] false])
      (fun _ => Dl.exn) 0).log.snapshotWrites = ["all_properties.json"] ∧
    (backup_airtable_data true
      ⟨(fun n =>
          if n = "all_properties.json" then
            some (.json (.arr (toJList [Json.obj (.cons "id" (.str "recA") .nil),
                                        Json.obj (.cons "id" (.str "recB") .nil)])))
          else if n = "reconstruction_properties.json" then some (.json (.arr .nil))
          else if n = "high_yield_properties.json" then some (.json (.arr .nil))
          else if n = "low_cost_properties.json" then some (.json (.arr .nil))
          else none),
        ⟨[], .absent⟩⟩
      (fun vid =>
        if vid = "viwyV15T4ihMpbDbr" then
          [Page.resp 200 [Json.obj (.cons "id" (.str "recA") .nil)] true,
           Page.resp 500 [] false]
        else [Page.resp 200 [] false])
      (fun _ => Dl.exn) 0).state.files "all_properties.json"
      = some (.json (.arr (toJList [Json.obj (.cons "id" (.str "recA") .nil)]))) := by
  decide

/-! ### C3 -/

/-! ### C3 helpers -/

theorem fsSet_ne (fs : FS) (name g : String) (c : FileContent) (h : g ≠ name) :
    fsSet fs name c g = fs g := by
  simp [fsSet, h]

theorem load_some {fs : FS} {fn : String} {d : Json}
    (h : load_previous_data fs fn = some d) : fs fn = some (.json d) := by
  unfold load_previous_data at h
  rcases hf : fs fn with _ | (d' | _) <;> rw [hf] at h <;> simp_all

theorem compare_frame (fs : FS) (nd : List Json) (fn g : String) (h : g ≠ fn) :
    (compare_and_update_data fs nd fn).fs g = fs g := by
  rcases hp : load_previous_data fs fn with _ | prev
  · simp only [compare_and_update_data, hp]
    exact fsSet_ne _ _ _ _ h
  · simp only [compare_and_update_data, hp]
    split
    · rfl
    · exact fsSet_ne _ _ _ _ h

theorem compare_establish (fs : FS) (nd : List Json) (fn : String) :
    ∃ d, (compare_and_update_data fs nd fn).fs fn = some (.json d) ∧
      calculate_data_hash d = calculate_data_hash (.arr (toJList nd)) := by
  rcases hp : load_previous_data fs fn with _ | prev
  · refine ⟨.arr (toJList nd), ?_, rfl⟩
    simp [compare_and_update_data, hp, save_backup_data, fsSet]
  · by_cases hh : calculate_data_hash (.arr (toJList nd)) = calculate_data_hash prev
    · refine ⟨prev, ?_, hh.symm⟩
      simp only [compare_and_update_data, hp, if_pos hh]
      exact load_some hp
    · refine ⟨.arr (toJList nd), ?_, rfl⟩
      simp only [compare_and_update_data, hp, if_neg hh]
      simp [save_backup_data, fsSet]

theorem compare_unchanged (fs : FS) (nd : List Json) (fn : String) (d : Json)
    (h1 : fs fn = some (.json d))
    (h2 : calculate_data_hash d = calculate_data_hash (.arr (toJList nd))) :
    (compare_and_update_data fs nd fn).fs = fs ∧
    (compare_and_update_data fs nd fn).updated = false := by
  have hp : load_previous_data fs fn = some d := by simp [load_previous_data, h1]
  constructor <;> simp [compare_and_update_data, hp, h2.symm]

theorem processView_frame (remote : String → List Page) (acc : RunAcc) (w : ViewCfg)
    (g : String) (hne : g ≠ w.filename) :
    (processView remote acc w).fs g = acc.fs g := by
  rcases ho : (fetchGo (remote w.vid)).2 with _ | _ | _ <;>
    simp only [processView, ho] <;>
    first
      | rfl
      | exact compare_frame _ _ _ _ hne

theorem matches_establish (remote : String → List Page) (acc : RunAcc) (v : ViewCfg)
    (h : (fetchGo (remote v.vid)).2 ≠ FetchOutcome.exn) :
    viewSnapshotMatches remote (processView remote acc v).fs v := by
  rcases ho : (fetchGo (remote v.vid)).2 with _ | _ | _
  · exact absurd ho h
  · simp only [processView, ho]
    exact compare_establish acc.fs (fetchGo (remote v.vid)).1 v.filename
  · simp only [processView, ho]
    exact compare_establish acc.fs (fetchGo (remote v.vid)).1 v.filename

theorem matches_preserve (remote : String → List Page) (acc : RunAcc) (w v : ViewCfg)
    (hne : v.filename ≠ w.filename)
    (h : viewSnapshotMatches remote acc.fs v) :
    viewSnapshotMatches remote (processView remote acc w).fs v := by
  obtain ⟨d, h1, h2⟩ := h
  exact ⟨d, by rw [processView_frame remote acc w v.filename hne]; exact h1, h2⟩

theorem matches_fsSet (remote : String → List Page) (fs : FS) (v : ViewCfg)
    (name : String) (c : FileContent) (hne : v.filename ≠ name)
    (h : viewSnapshotMatches remote fs v) :
    viewSnapshotMatches remote (fsSet fs name c) v := by
  obtain ⟨d, h1, h2⟩ := h
  exact ⟨d, by rw [fsSet_ne fs name v.filename c hne]; exact h1, h2⟩

theorem processView_unchanged (remote : String → List Page) (acc : RunAcc) (v : ViewCfg)
    (h : viewSnapshotMatches remote acc.fs v) :
    (processView remote acc v).fs = acc.fs ∧
    (processView remote acc v).updatedViews = acc.updatedViews ∧
    (processView remote acc v).snapshotWrites = acc.snapshotWrites := by
  obtain ⟨d, h1, h2⟩ := h
  have hu := compare_unchanged acc.fs (fetchGo (remote v.vid)).1 v.filename d h1 h2
  rcases ho : (fetchGo (remote v.vid)).2 with _ | _ | _ <;>
    simp [processView, ho, hu.1, hu.2]

theorem foldl_preserve (remote : String → List Page) :
    ∀ (vs : List ViewCfg) (acc : RunAcc) (v : ViewCfg),
      (∀ w ∈ vs, v.filename ≠ w.filename) →
      viewSnapshotMatches remote acc.fs v →
      viewSnapshotMatches remote ((vs.foldl (processView remote) acc).fs) v := by
  intro vs
  induction vs with
  | nil => intro acc v _ h; exact h
  | cons w tl ih =>
      intro acc v hne h
      simp only [List.foldl_cons]
      exact ih (processView remote acc w) v (fun u hu => hne u (by simp [hu]))
        (matches_preserve remote acc w v (hne w (by simp)) h)

theorem foldl_establish (remote : String → List Page) :
    ∀ (vs : List ViewCfg) (acc : RunAcc),
      (∀ v ∈ vs, (fetchGo (remote v.vid)).2 ≠ FetchOutcome.exn) →
      vs.Pairwise (fun a b => a.filename ≠ b.filename) →
      ∀ v ∈ vs, viewSnapshotMatches remote ((vs.foldl (processView remote) acc).fs) v := by
  intro vs
  induction vs with
  | nil => intro acc _ _ v hv; cases hv
  | cons w tl ih =>
      intro acc hne hpw v hv
      obtain ⟨hpw1, hpw2⟩ := List.pairwise_cons.mp hpw
      simp only [List.foldl_cons]
      rcases List.mem_cons.mp hv with rfl | hv'
      · exact foldl_preserve remote tl (processView remote acc v) v
          (fun u hu => hpw1 u hu)
          (matches_establish remote acc v (hne v (by simp)))
      · exact ih (processView remote acc w) (fun u hu => hne u (by simp [hu])) hpw2 v hv'

theorem foldl_quiet (remote : String → List Page) :
    ∀ (vs : List ViewCfg) (acc : RunAcc),
      (∀ v ∈ vs, viewSnapshotMatches remote acc.fs v) →
      (vs.foldl (processView remote) acc).fs = acc.fs ∧
      (vs.foldl (processView remote) acc).updatedViews = acc.updatedViews ∧
      (vs.foldl (processView remote) acc).snapshotWrites = acc.snapshotWrites := by
  intro vs
  induction vs with
  | nil => intro acc _; exact ⟨rfl, rfl, rfl⟩
  | cons v tl ih =>
      intro acc h
      simp only [List.foldl_cons]
      have hv := processView_unchanged remote acc v (h v (by simp))
      have htl := ih (processView remote acc v)
        (fun w hw => by
          rw [hv.1]
          exact h w (by simp [hw]))
      exact ⟨htl.1.trans hv.1, htl.2.1.trans hv.2.1, htl.2.2.trans hv.2.2⟩

/-- C3: running the whole sync twice against a remote that answers every view's
pagination completely (and identically, being a function of the view id) performs
zero snapshot writes and zero image downloads on the second run: every view's hash
comparison yields Unchanged and the image pass is not entered. -/
theorem claim_C3 (st : SysState) (remote : String → List Page) (net : String → Dl)
    (now1 now2 : Nat)
    (hc : ∀ v ∈ VIEWS, (fetchGo (remote v.vid)).2 = FetchOutcome.complete) :
    (backup_airtable_data true (backup_airtable_data true st remote net now1).state
        remote net now2).log.updatedViews = [] ∧
    (backup_airtable_data true (backup_airtable_data true st remote net now1).state
        remote net now2).log.snapshotWrites = [] ∧
    (backup_airtable_data true (backup_airtable_data true st remote net now1).state
        remote net now2).log.imageDownloads = [] := by
  have hm : ∀ v ∈ VIEWS, viewSnapshotMatches remote
      ((VIEWS.foldl (processView remote) ⟨st.files, 0, 0, 0, [], [], []⟩).fs) v :=
    foldl_establish remote VIEWS ⟨st.files, 0, 0, 0, [], [], []⟩
      (fun v hv => by rw [hc v hv]; simp) (by decide)
  have hframe : ∀ g, g ≠ "metadata.json" →
      (backup_airtable_data true st remote net now1).state.files g
        = (VIEWS.foldl (processView remote) ⟨st.files, 0, 0, 0, [], [], []⟩).fs g := by
    intro g hg
    unfold backup_airtable_data
    rw [if_neg (by simp)]
    exact fsSet_ne _ _ _ _ hg
  have hnm : ∀ v ∈ VIEWS, v.filename ≠ "metadata.json" := by decide
  have hmS : ∀ v ∈ VIEWS, viewSnapshotMatches remote
      ((backup_airtable_data true st remote net now1).state.files) v := by
    intro v hv
    obtain ⟨d, h1, h2⟩ := hm v hv
    exact ⟨d, by rw [hframe v.filename (hnm v hv)]; exact h1, h2⟩
  obtain ⟨st1, hst⟩ : ∃ s, (backup_airtable_data true st remote net now1).state = s :=
    ⟨_, rfl⟩
  rw [hst] at hmS
  have hq := foldl_quiet remote VIEWS ⟨st1.files, 0, 0, 0, [], [], []⟩
    (fun v hv => hmS v hv)
  have hcond : ¬ ("all" ∈ (VIEWS.foldl (processView remote)
      ⟨st1.files, 0, 0, 0, [], [], []⟩).updatedViews ∧
      (VIEWS.foldl (processView remote)
      ⟨st1.files, 0, 0, 0, [], [], []⟩).allRecords ≠ []) :=
    fun h => absurd (hq.2.1 ▸ h.1) (by simp)
  rw [hst]
  refine ⟨?_, ?_, ?_⟩ <;>
    unfold backup_airtable_data <;>
    rw [if_neg (by simp)] <;>
    dsimp only
  · exact hq.2.1
  · exact hq.2.2
  · rw [if_neg hcond]

theorem claim_C3_witness :
    (backup_airtable_data true
      (backup_airtable_data true ⟨(fun _ => none), ⟨[], .absent⟩⟩
        (fun _ => [Page.resp 200 [] false]) (fun _ => Dl.exn) 0).state
      (fun _ => [Page.resp 200 [] false]) (fun _ => Dl.exn) 1).log.updatedViews = [] ∧
    (backup_airtable_data true
      (backup_airtable_data true ⟨(fun _ => none), ⟨[], .absent⟩⟩
        (fun _ => [Page.resp 200 [] false]) (fun _ => Dl.exn) 0).state
      (fun _ => [Page.resp 200 [] false]) (fun _ => Dl.exn) 1).log.snapshotWrites = [] ∧
    (backup_airtable_data true
      (backup_airtable_data true ⟨(fun _ => none), ⟨[], .absent⟩⟩
        (fun _ => [Page.resp 200 [] false]) (fun _ => Dl.exn) 0).state
      (fun _ => [Page.resp 200 [] false]) (fun _ => Dl.exn) 1).log.imageDownloads = [] :=
  claim_C3 ⟨(fun _ => none), ⟨[], .absent⟩⟩ (fun _ => [Page.resp 200 [] false])
    (fun _ => Dl.exn) 0 1 (by decide)

theorem claim_C9_witness :
    (get_image_priority "img_1.jpg").1 = 1 ∧
    (get_image_priority "representative.jpg").1 = 2 ∧
    (get_image_priority "photo_link_1.jpg").1 = 3 ∧
    (get_image_priority "photo_1.jpg").1 = 4 ∧
    (get_image_priority ("photo_link_" ++ toString (0 + 1) ++ ".jpg")).1 = 3 :=
  ⟨claim_C9.1 "img_1.jpg" (by decide),
   claim_C9.2.1 "representative.jpg" (by decide) (by decide),
   claim_C9.2.2.1 "photo_link_1.jpg" (by decide) (by decide) (Or.inr (by decide)),
   claim_C9.2.2.2.1 "photo_1.jpg" (by decide) (by decide) (by decide) (by decide),
   claim_C9.2.2.2.2.1 0 (by decide)⟩

/-! ### C6 -/

/-! ### C6 helpers: digest bounds and the pigeonhole collision -/

theorem md5Block_lt (st : Nat × Nat × Nat × Nat) (blk : List Nat) :
    (md5Block st blk).1 < w32 ∧ (md5Block st blk).2.1 < w32 ∧
    (md5Block st blk).2.2.1 < w32 ∧ (md5Block st blk).2.2.2 < w32 := by
  obtain ⟨a0, b0, c0, d0⟩ := st
  rcases hf : (List.range 64).foldl (fun s i => md5Step (leWords blk) i s) (a0, b0, c0, d0)
    with ⟨a, b, c, d⟩
  have hw : 0 < w32 := by decide
  simp only [md5Block, hf]
  exact ⟨Nat.mod_lt _ hw, Nat.mod_lt _ hw, Nat.mod_lt _ hw, Nat.mod_lt _ hw⟩

theorem foldl_md5_lt (blocks : List (List Nat)) (st : Nat × Nat × Nat × Nat)
    (h : st.1 < w32 ∧ st.2.1 < w32 ∧ st.2.2.1 < w32 ∧ st.2.2.2 < w32) :
    (blocks.foldl md5Block st).1 < w32 ∧ (blocks.foldl md5Block st).2.1 < w32 ∧
    (blocks.foldl md5Block st).2.2.1 < w32 ∧ (blocks.foldl md5Block st).2.2.2 < w32 := by
  induction blocks generalizing st with
  | nil => exact h
  | cons b bs ih => exact ih (md5Block st b) (md5Block_lt st b)

theorem md5Words_lt (msg : List Nat) :
    (md5Words msg).1 < w32 ∧ (md5Words msg).2.1 < w32 ∧
    (md5Words msg).2.2.1 < w32 ∧ (md5Words msg).2.2.2 < w32 := by
  unfold md5Words
  exact foldl_md5_lt _ _ (by decide)

theorem md5Nat_eq_hex {m1 m2 : List Nat} (h : md5Nat m1 = md5Nat m2) :
    md5Hex m1 = md5Hex m2 := by
  have h1 := md5Words_lt m1
  have h2 := md5Words_lt m2
  rcases hw1 : md5Words m1 with ⟨a1, b1, c1, d1⟩
  rcases hw2 : md5Words m2 with ⟨a2, b2, c2, d2⟩
  rw [hw1] at h1
  rw [hw2] at h2
  dsimp only at h1 h2
  unfold md5Nat at h
  rw [hw1, hw2] at h
  dsimp only at h
  obtain ⟨ha1, hb1, hc1, hd1⟩ := h1
  obtain ⟨ha2, hb2, hc2, hd2⟩ := h2
  unfold w32 at h ha1 hb1 hc1 hd1 ha2 hb2 hc2 hd2
  have he : a1 = a2 ∧ b1 = b2 ∧ c1 = c2 ∧ d1 = d2 := by omega
  obtain ⟨e1, e2, e3, e4⟩ := he
  unfold md5Hex
  rw [hw1, hw2, e1, e2, e3, e4]

theorem md5Nat_lt (msg : List Nat) :
    md5Nat msg < 340282366920938463463374607431768211456 := by
  have h := md5Words_lt msg
  rcases hw : md5Words msg with ⟨a, b, c, d⟩
  rw [hw] at h
  dsimp only at h
  obtain ⟨h1, h2, h3, h4⟩ := h
  unfold md5Nat
  rw [hw]
  dsimp only
  unfold w32 at h1 h2 h3 h4 ⊢
  omega

set_option maxHeartbeats 1000000 in
/-- C6, second half refuted: MD5 maps the infinitely many single-record lists that
differ only in one field's string value into finitely many digests, so two of them
collide — two record lists that differ in a field value but hash identically. -/
theorem claim_C6_counterexample :
    ¬ ∀ l1 l2 : JList, RecordListsDifferInOneField l1 l2 →
        calculate_data_hash (Json.arr l1) ≠ calculate_data_hash (Json.arr l2) := by
  intro H
  obtain ⟨m, n, hmn, hfe⟩ := Finite.exists_ne_map_eq_of_infinite
    (fun k : Nat => (⟨md5Nat (utf8Bytes (serStr (Json.arr (c6List k)))),
      md5Nat_lt _⟩ : Fin 340282366920938463463374607431768211456))
  have hval := congrArg Fin.val hfe
  dsimp only at hval
  have hdiff : RecordListsDifferInOneField (c6List m) (c6List n) := by
    refine ⟨.nil, .nil, .nil, .cons "id" (.str "rec1") .nil, .nil, .nil, "note",
      .str (aStr m), .str (aStr n), rfl, rfl, ?_⟩
    intro hv
    apply hmn
    have hs : aStr m = aStr n := by injection hv
    have hl := congrArg (fun s : String => s.data.length) hs
    simpa [aStr] using hl
  refine H _ _ hdiff ?_
  unfold calculate_data_hash md5HexStr
  exact md5Nat_eq_hex hval

/-! ### C6: decimal numeral lemmas -/

theorem char_toNat_inj {a b : Char} (h : a.toNat = b.toNat) : a = b := by
  have hc := congrArg Char.ofNat h
  rwa [Char.ofNat_toNat, Char.ofNat_toNat] at hc

theorem natToRevDigits_lt10 : ∀ f n, ∀ d ∈ natToRevDigits f n, d < 10 := by
  intro f
  induction f with
  | zero => intro n d hd; simp [natToRevDigits] at hd
  | succ f ih =>
      intro n d hd
      by_cases h : n = 0
      · simp [natToRevDigits, h] at hd
      · rw [natToRevDigits, if_neg h] at hd
        rcases List.mem_cons.mp hd with rfl | hd'
        · exact Nat.mod_lt n (by norm_num)
        · exact ih (n / 10) d hd'

theorem natToRevDigits_nil : ∀ f n, n ≤ f → natToRevDigits f n = [] → n = 0 := by
  intro f n hf h
  cases f with
  | zero => omega
  | succ f =>
      by_cases hn : n = 0
      · exact hn
      · rw [natToRevDigits, if_neg hn] at h
        cases h

theorem natToRevDigits_inj : ∀ f1 m, m ≤ f1 → ∀ f2 n, n ≤ f2 →
    natToRevDigits f1 m = natToRevDigits f2 n → m = n := by
  intro f1
  induction f1 with
  | zero =>
      intro m hm f2 n hn h
      have hm0 : m = 0 := by omega
      subst hm0
      exact (natToRevDigits_nil f2 n hn h.symm).symm
  | succ f ih =>
      intro m hm f2 n hn h
      by_cases hm0 : m = 0
      · subst hm0
        rw [natToRevDigits, if_pos rfl] at h
        exact (natToRevDigits_nil f2 n hn h.symm).symm
      · cases f2 with
        | zero =>
            have hn0 : n = 0 := by omega
            subst hn0
            exact absurd (natToRevDigits_nil (f + 1) m hm (h.trans rfl)) hm0
        | succ f2 =>
            by_cases hn0 : n = 0
            · subst hn0
              rw [natToRevDigits, if_neg hm0, natToRevDigits, if_pos rfl] at h
              cases h
            · rw [natToRevDigits, if_neg hm0, natToRevDigits, if_neg hn0] at h
              injection h with hmod htl
              have hdm : m / 10 ≤ f := by
                have := Nat.div_lt_self (Nat.pos_of_ne_zero hm0) (by norm_num : 1 < 10)
                omega
              have hdn : n / 10 ≤ f2 := by
                have := Nat.div_lt_self (Nat.pos_of_ne_zero hn0) (by norm_num : 1 < 10)
                omega
              have hdiv := ih (m / 10) hdm f2 (n / 10) hdn htl
              omega

theorem digitChar10_isDigit {d : Nat} (h : d < 10) : (digitChar10 d).isDigit = true := by
  interval_cases d <;> decide

theorem digitChar10_inj {a b : Nat} (ha : a < 10) (hb : b < 10)
    (h : digitChar10 a = digitChar10 b) : a = b := by
  interval_cases a <;> interval_cases b <;> first | rfl | exact absurd h (by decide)

theorem map_digitChar10_inj : ∀ (xs ys : List Nat), (∀ x ∈ xs, x < 10) →
    (∀ y ∈ ys, y < 10) → xs.map digitChar10 = ys.map digitChar10 → xs = ys := by
  intro xs
  induction xs with
  | nil =>
      intro ys _ _ h
      cases ys with
      | nil => rfl
      | cons y ys' => cases h
  | cons x xs' ih =>
      intro ys hxs hys h
      cases ys with
      | nil => cases h
      | cons y ys' =>
          injection h with h1 h2
          have hx := digitChar10_inj (hxs x (by simp)) (hys y (by simp)) h1
          rw [hx, ih ys' (fun u hu => hxs u (by simp [hu])) (fun u hu => hys u (by simp [hu])) h2]

theorem natSer_ne_nil (n : Nat) : natSer n ≠ [] := by
  unfold natSer
  by_cases h : n = 0
  · simp [h]
  · rw [if_neg h]
    cases n with
    | zero => exact absurd rfl h
    | succ k =>
        rw [natToRevDigits, if_neg h]
        simp

theorem natSer_digits (n : Nat) : ∀ c ∈ natSer n, c.isDigit = true := by
  unfold natSer
  by_cases h : n = 0
  · simp [h]
  · rw [if_neg h]
    intro c hc
    rw [List.mem_map] at hc
    obtain ⟨d, hd, he⟩ := hc
    rw [List.mem_reverse] at hd
    rw [← he]
    exact digitChar10_isDigit (natToRevDigits_lt10 n n d hd)

theorem natSer_head (n : Nat) : ∃ c t, natSer n = c :: t ∧ c.isDigit = true := by
  rcases hn : natSer n with _ | ⟨c, t⟩
  · exact absurd hn (natSer_ne_nil n)
  · exact ⟨c, t, rfl, natSer_digits n c (by rw [hn]; simp)⟩

theorem natSer_inj {m n : Nat} (h : natSer m = natSer n) : m = n := by
  unfold natSer at h
  by_cases hm : m = 0 <;> by_cases hn : n = 0
  · omega
  · rw [if_pos hm, if_neg hn] at h
    have h2 := map_digitChar10_inj [0] (natToRevDigits n n).reverse (by simp)
      (fun y hy => natToRevDigits_lt10 n n y (List.mem_reverse.mp hy)) (by simpa using h)
    have h3 : natToRevDigits n n = [0] := by
      have := congrArg List.reverse h2
      simpa using this.symm
    cases n with
    | zero => exact absurd rfl hn
    | succ k =>
        rw [natToRevDigits, if_neg hn] at h3
        injection h3 with hd htl
        have := natToRevDigits_nil k ((k + 1) / 10)
          (by
            have := Nat.div_lt_self (Nat.succ_pos k) (by norm_num : 1 < 10)
            omega) htl
        omega
  · rw [if_neg hm, if_pos hn] at h
    have h2 := map_digitChar10_inj (natToRevDigits m m).reverse [0]
      (fun y hy => natToRevDigits_lt10 m m y (List.mem_reverse.mp hy)) (by simp) (by simpa using h)
    have h3 : natToRevDigits m m = [0] := by
      have := congrArg List.reverse h2
      simpa using this
    cases m with
    | zero => exact absurd rfl hm
    | succ k =>
        rw [natToRevDigits, if_neg hm] at h3
        injection h3 with hd htl
        have := natToRevDigits_nil k ((k + 1) / 10)
          (by
            have := Nat.div_lt_self (Nat.succ_pos k) (by norm_num : 1 < 10)
            omega) htl
        omega
  · rw [if_neg hm, if_neg hn] at h
    have h2 := map_digitChar10_inj (natToRevDigits m m).reverse (natToRevDigits n n).reverse
      (fun y hy => natToRevDigits_lt10 m m y (List.mem_reverse.mp hy))
      (fun y hy => natToRevDigits_lt10 n n y (List.mem_reverse.mp hy)) h
    have h3 := congrArg List.reverse h2
    simp only [List.reverse_reverse] at h3
    exact natToRevDigits_inj m m le_rfl n n le_rfl h3

theorem goodTail_nil : GoodTail [] := fun _ _ h => nomatch h

theorem goodTail_cons {c : Char} (h : c.isDigit = false) (t : List Char) :
    GoodTail (c :: t) := by
  intro c' t' he
  injection he with h1 _
  rw [← h1]
  exact h

theorem digit_run_unique : ∀ (xs ys : List Char) (r1 r2 : List Char),
    (∀ c ∈ xs, c.isDigit = true) → (∀ c ∈ ys, c.isDigit = true) →
    GoodTail r1 → GoodTail r2 → xs ++ r1 = ys ++ r2 → xs = ys ∧ r1 = r2 := by
  intro xs
  induction xs with
  | nil =>
      intro ys r1 r2 _ hys h1 _ h
      cases ys with
      | nil => exact ⟨rfl, h⟩
      | cons y ys' =>
          exfalso
          have hd := hys y (by simp)
          have hg := h1 y (ys' ++ r2) (by simpa using h)
          rw [hd] at hg
          cases hg
  | cons x xs' ih =>
      intro ys r1 r2 hxs hys h1 h2 h
      cases ys with
      | nil =>
          exfalso
          have hd := hxs x (by simp)
          have hg := h2 x (xs' ++ r1) (by simpa using h.symm)
          rw [hd] at hg
          cases hg
      | cons y ys' =>
          simp only [List.cons_append] at h
          injection h with hh htl
          obtain ⟨he, hr⟩ := ih ys' r1 r2 (fun u hu => hxs u (by simp [hu]))
            (fun u hu => hys u (by simp [hu])) h1 h2 htl
          exact ⟨by rw [hh, he], hr⟩

theorem natSer_inj_tail {m n : Nat} {r1 r2 : List Char} (h1 : GoodTail r1)
    (h2 : GoodTail r2) (h : natSer m ++ r1 = natSer n ++ r2) : m = n ∧ r1 = r2 := by
  obtain ⟨he, hr⟩ := digit_run_unique (natSer m) (natSer n) r1 r2
    (natSer_digits m) (natSer_digits n) h1 h2 h
  exact ⟨natSer_inj he, hr⟩

theorem intSer_inj_tail {i j : Int} {r1 r2 : List Char} (h1 : GoodTail r1)
    (h2 : GoodTail r2) (h : intSer i ++ r1 = intSer j ++ r2) : i = j ∧ r1 = r2 := by
  cases i with
  | ofNat m =>
      cases j with
      | ofNat n =>
          obtain ⟨he, hr⟩ := natSer_inj_tail h1 h2 h
          exact ⟨by rw [he], hr⟩
      | negSucc n =>
          exfalso
          obtain ⟨c, t, hct, hd⟩ := natSer_head m
          rw [show intSer (Int.ofNat m) = natSer m from rfl,
            show intSer (Int.negSucc n) = '-' :: natSer (n + 1) from rfl, hct] at h
          simp only [List.cons_append] at h
          injection h with hh _
          rw [hh] at hd
          cases hd
  | negSucc m =>
      cases j with
      | ofNat n =>
          exfalso
          obtain ⟨c, t, hct, hd⟩ := natSer_head n
          rw [show intSer (Int.negSucc m) = '-' :: natSer (m + 1) from rfl,
            show intSer (Int.ofNat n) = natSer n from rfl, hct] at h
          simp only [List.cons_append] at h
          injection h with hh _
          rw [← hh] at hd
          cases hd
      | negSucc n =>
          rw [show intSer (Int.negSucc m) = '-' :: natSer (m + 1) from rfl,
            show intSer (Int.negSucc n) = '-' :: natSer (n + 1) from rfl] at h
          simp only [List.cons_append] at h
          injection h with _ htl
          obtain ⟨he, hr⟩ := natSer_inj_tail h1 h2 htl
          have hmn : m = n := by omega
          exact ⟨by rw [hmn], hr⟩

/-! ### C6: string-literal escape decodability -/

theorem hexVal_hexDigitChar {d : Nat} (h : d < 16) : hexVal (hexDigitChar d) = d := by
  interval_cases d <;> decide

theorem decodeEsc_escChar (x : Char) (a : List Char) :
    decodeEsc (escChar x ++ a) = some (x, a) := by
  unfold escChar
  split_ifs with h1 h2 h3 h4 h5 h6 h7 h8
  · rw [h1]; rfl
  · rw [h2]; rfl
  · have hx : Char.ofNat 8 = x := by rw [← h3, Char.ofNat_toNat]
    show some (Char.ofNat 8, a) = some (x, a)
    rw [hx]
  · have hx : Char.ofNat 9 = x := by rw [← h4, Char.ofNat_toNat]
    show some (Char.ofNat 9, a) = some (x, a)
    rw [hx]
  · have hx : Char.ofNat 10 = x := by rw [← h5, Char.ofNat_toNat]
    show some (Char.ofNat 10, a) = some (x, a)
    rw [hx]
  · have hx : Char.ofNat 12 = x := by rw [← h6, Char.ofNat_toNat]
    show some (Char.ofNat 12, a) = some (x, a)
    rw [hx]
  · have hx : Char.ofNat 13 = x := by rw [← h7, Char.ofNat_toNat]
    show some (Char.ofNat 13, a) = some (x, a)
    rw [hx]
  · show some (Char.ofNat (16 * hexVal (hexDigitChar (x.toNat / 16)) +
        hexVal (hexDigitChar (x.toNat % 16))), a) = some (x, a)
    rw [hexVal_hexDigitChar (by omega : x.toNat / 16 < 16),
      hexVal_hexDigitChar (Nat.mod_lt _ (by norm_num)),
      Nat.div_add_mod, Char.ofNat_toNat]
  · show (if x = '\\' then _ else some (x, a)) = some (x, a)
    rw [if_neg h2]

theorem escChar_head (y : Char) : ∃ c t, escChar y = c :: t ∧ ¬ c = '"' := by
  unfold escChar
  split_ifs with h1 h2 h3 h4 h5 h6 h7 h8
  · exact ⟨'\\', _, rfl, by decide⟩
  · exact ⟨'\\', _, rfl, by decide⟩
  · exact ⟨'\\', _, rfl, by decide⟩
  · exact ⟨'\\', _, rfl, by decide⟩
  · exact ⟨'\\', _, rfl, by decide⟩
  · exact ⟨'\\', _, rfl, by decide⟩
  · exact ⟨'\\', _, rfl, by decide⟩
  · exact ⟨'\\', _, rfl, by decide⟩
  · exact ⟨y, [], rfl, h1⟩

theorem escStream_unique : ∀ (xs ys : List Char) (r1 r2 : List Char),
    xs.flatMap escChar ++ '"' :: r1 = ys.flatMap escChar ++ '"' :: r2 →
    xs = ys ∧ r1 = r2 := by
  intro xs
  induction xs with
  | nil =>
      intro ys r1 r2 h
      cases ys with
      | nil =>
          simp only [List.flatMap_nil, List.nil_append] at h
          injection h with _ h2
          exact ⟨rfl, h2⟩
      | cons y ys' =>
          exfalso
          obtain ⟨c, t, hct, hne⟩ := escChar_head y
          rw [List.flatMap_cons, hct] at h
          simp only [List.flatMap_nil, List.nil_append, List.cons_append,
            List.append_assoc] at h
          injection h with hh _
          exact hne hh.symm
  | cons x xs' ih =>
      intro ys r1 r2 h
      cases ys with
      | nil =>
          exfalso
          obtain ⟨c, t, hct, hne⟩ := escChar_head x
          rw [List.flatMap_cons, hct] at h
          simp only [List.flatMap_nil, List.nil_append, List.cons_append,
            List.append_assoc] at h
          injection h with hh _
          exact hne hh
      | cons y ys' =>
          rw [List.flatMap_cons, List.flatMap_cons, List.append_assoc,
            List.append_assoc] at h
          have hd1 := decodeEsc_escChar x (xs'.flatMap escChar ++ '"' :: r1)
          have hd2 := decodeEsc_escChar y (ys'.flatMap escChar ++ '"' :: r2)
          rw [h] at hd1
          rw [hd2] at hd1
          injection hd1 with hp
          injection hp with hxy htl
          obtain ⟨he, hr⟩ := ih ys' r1 r2 htl.symm
          exact ⟨by rw [hxy, he], hr⟩

theorem strSer_inj_tail {s1 s2 : String} {r1 r2 : List Char}
    (h : strSer s1 ++ r1 = strSer s2 ++ r2) : s1 = s2 ∧ r1 = r2 := by
  unfold strSer at h
  simp only [List.cons_append, List.append_assoc, List.singleton_append] at h
  injection h with _ htl
  obtain ⟨he, hr⟩ := escStream_unique s1.data s2.data r1 r2 htl
  refine ⟨?_, hr⟩
  cases s1 with
  | mk d1 =>
      cases s2 with
      | mk d2 => simp only at he; rw [he]

/-! ### C6: first-character discrimination -/

theorem charClass_digit {c : Char} (h : c.isDigit = true) : charClass c = 2 := by
  unfold charClass
  rw [if_neg (by rintro rfl; simp at h), if_neg (by rintro (rfl | rfl) <;> simp at h),
    if_neg (by rintro rfl; simp at h), if_neg (by rintro rfl; simp at h),
    if_neg (by rintro rfl; simp at h), if_pos (Or.inl h)]

theorem rawSer_head (j : Json) : ∃ c t, rawSer j = c :: t ∧ charClass c = ctorClass j := by
  cases j with
  | null => exact ⟨'n', _, rfl, by decide⟩
  | bool b => cases b with
      | true => exact ⟨'t', _, rfl, by decide⟩
      | false => exact ⟨'f', _, rfl, by decide⟩
  | num n =>
      cases n with
      | ofNat m =>
          obtain ⟨c, t, hct, hd⟩ := natSer_head m
          exact ⟨c, t, hct, charClass_digit hd⟩
      | negSucc m => exact ⟨'-', natSer (m + 1), rfl, rfl⟩
  | str s => exact ⟨'"', _, rfl, rfl⟩
  | arr es => exact ⟨'[', _, rfl, rfl⟩
  | obj es => exact ⟨'{', _, rfl, rfl⟩

theorem ctorClass_le (j : Json) : ctorClass j ≤ 5 := by
  cases j <;> norm_num [ctorClass]

theorem goodTail_serTail (tl : JList) (t : List Char) :
    GoodTail (rawSerTail tl ++ ']' :: t) := by
  cases tl with
  | nil =>
      intro c t' he
      rw [show rawSerTail JList.nil = [] from rfl, List.nil_append] at he
      injection he with h1 _
      rw [← h1]
      decide
  | cons x tl' =>
      intro c t' he
      rw [show rawSerTail (JList.cons x tl') = ',' :: ' ' :: rawSer x ++ rawSerTail tl'
        from rfl] at he
      simp only [List.cons_append] at he
      injection he with h1 _
      rw [← h1]
      decide

theorem goodTail_serObjTail (tl : JObj) (t : List Char) :
    GoodTail (rawSerObjTail tl ++ '}' :: t) := by
  cases tl with
  | nil =>
      intro c t' he
      rw [show rawSerObjTail JObj.nil = [] from rfl, List.nil_append] at he
      injection he with h1 _
      rw [← h1]
      decide
  | cons k v tl' =>
      intro c t' he
      rw [show rawSerObjTail (JObj.cons k v tl') =
        ',' :: ' ' :: strSer k ++ ':' :: ' ' :: rawSer v ++ rawSerObjTail tl' from rfl] at he
      simp only [List.cons_append] at he
      injection he with h1 _
      rw [← h1]
      decide

/-! ### C6: prefix determinism of the serializer -/

theorem rawSer_master : ∀ N : Nat,
    (∀ j1 j2 r1 r2, jsize j1 + jsize j2 ≤ N → GoodTail r1 → GoodTail r2 →
        rawSer j1 ++ r1 = rawSer j2 ++ r2 → j1 = j2 ∧ r1 = r2) ∧
    (∀ l1 l2 t1 t2, jlsize l1 + jlsize l2 ≤ N →
        rawSerList l1 ++ ']' :: t1 = rawSerList l2 ++ ']' :: t2 → l1 = l2 ∧ t1 = t2) ∧
    (∀ l1 l2 t1 t2, jlsize l1 + jlsize l2 ≤ N →
        rawSerTail l1 ++ ']' :: t1 = rawSerTail l2 ++ ']' :: t2 → l1 = l2 ∧ t1 = t2) ∧
    (∀ o1 o2 t1 t2, josize o1 + josize o2 ≤ N →
        rawSerObj o1 ++ '}' :: t1 = rawSerObj o2 ++ '}' :: t2 → o1 = o2 ∧ t1 = t2) ∧
    (∀ o1 o2 t1 t2, josize o1 + josize o2 ≤ N →
        rawSerObjTail o1 ++ '}' :: t1 = rawSerObjTail o2 ++ '}' :: t2 →
        o1 = o2 ∧ t1 = t2) := by
  intro N
  induction N using Nat.strong_induction_on with
  | _ N ih =>
  refine ⟨?_, ?_, ?_, ?_, ?_⟩
  · intro j1 j2 r1 r2 hsz hg1 hg2 h
    have hcl : ctorClass j1 = ctorClass j2 := by
      obtain ⟨c1, s1, e1, hc1⟩ := rawSer_head j1
      obtain ⟨c2, s2, e2, hc2⟩ := rawSer_head j2
      have h' := h
      rw [e1, e2] at h'
      simp only [List.cons_append] at h'
      injection h' with hh _
      rw [← hc1, ← hc2, hh]
    cases j1 <;> cases j2 <;> try (exfalso; revert hcl; norm_num [ctorClass]; done)
    · exact ⟨rfl, List.append_cancel_left h⟩
    · rename_i b1 b2
      cases b1 <;> cases b2
      · exact ⟨rfl, List.append_cancel_left h⟩
      · exfalso
        rw [show rawSer (Json.bool true) = 't' :: 'r' :: 'u' :: 'e' :: [] from rfl,
          show rawSer (Json.bool false) = 'f' :: 'a' :: 'l' :: 's' :: 'e' :: [] from rfl] at h
        simp only [List.cons_append] at h
        injection h with hh _
        exact absurd hh (by decide)
      · exfalso
        rw [show rawSer (Json.bool true) = 't' :: 'r' :: 'u' :: 'e' :: [] from rfl,
          show rawSer (Json.bool false) = 'f' :: 'a' :: 'l' :: 's' :: 'e' :: [] from rfl] at h
        simp only [List.cons_append] at h
        injection h with hh _
        exact absurd hh (by decide)
      · exact ⟨rfl, List.append_cancel_left h⟩
    · rename_i i1 i2
      obtain ⟨he, hr⟩ := intSer_inj_tail hg1 hg2 h
      exact ⟨by rw [he], hr⟩
    · rename_i s1 s2
      obtain ⟨he, hr⟩ := strSer_inj_tail h
      exact ⟨by rw [he], hr⟩
    · rename_i es1 es2
      rw [show rawSer (Json.arr es1) = '[' :: rawSerList es1 ++ [']'] from rfl,
        show rawSer (Json.arr es2) = '[' :: rawSerList es2 ++ [']'] from rfl] at h
      simp only [List.cons_append, List.append_assoc, List.singleton_append] at h
      injection h with _ htl
      have hsz' : jlsize es1 + jlsize es2 < N := by
        rw [show jsize (Json.arr es1) = 1 + jlsize es1 from rfl,
          show jsize (Json.arr es2) = 1 + jlsize es2 from rfl] at hsz
        omega
      obtain ⟨he, hr⟩ := (ih _ hsz').2.1 es1 es2 r1 r2 le_rfl htl
      exact ⟨by rw [he], hr⟩
    · rename_i o1 o2
      rw [show rawSer (Json.obj o1) = '{' :: rawSerObj o1 ++ ['}'] from rfl,
        show rawSer (Json.obj o2) = '{' :: rawSerObj o2 ++ ['}'] from rfl] at h
      simp only [List.cons_append, List.append_assoc, List.singleton_append] at h
      injection h with _ htl
      have hsz' : josize o1 + josize o2 < N := by
        rw [show jsize (Json.obj o1) = 1 + josize o1 from rfl,
          show jsize (Json.obj o2) = 1 + josize o2 from rfl] at hsz
        omega
      obtain ⟨he, hr⟩ := (ih _ hsz').2.2.2.1 o1 o2 r1 r2 le_rfl htl
      exact ⟨by rw [he], hr⟩
  · intro l1 l2 t1 t2 hsz h
    cases l1 with
    | nil =>
        cases l2 with
        | nil =>
            rw [show rawSerList JList.nil = [] from rfl] at h
            simp only [List.nil_append] at h
            injection h with _ h2
            exact ⟨rfl, h2⟩
        | cons y tl2 =>
            exfalso
            obtain ⟨c, s, e, hc⟩ := rawSer_head y
            rw [show rawSerList JList.nil = [] from rfl,
              show rawSerList (JList.cons y tl2) = rawSer y ++ rawSerTail tl2 from rfl,
              e] at h
            simp only [List.nil_append, List.cons_append, List.append_assoc] at h
            injection h with hh _
            rw [← hh] at hc
            have h6 : charClass ']' = 6 := by decide
            rw [h6] at hc
            have := ctorClass_le y
            omega
    | cons x tl1 =>
        cases l2 with
        | nil =>
            exfalso
            obtain ⟨c, s, e, hc⟩ := rawSer_head x
            rw [show rawSerList JList.nil = [] from rfl,
              show rawSerList (JList.cons x tl1) = rawSer x ++ rawSerTail tl1 from rfl,
              e] at h
            simp only [List.nil_append, List.cons_append, List.append_assoc] at h
            injection h with hh _
            rw [hh] at hc
            have h6 : charClass ']' = 6 := by decide
            rw [h6] at hc
            have := ctorClass_le x
            omega
        | cons y tl2 =>
            rw [show rawSerList (JList.cons x tl1) = rawSer x ++ rawSerTail tl1 from rfl,
              show rawSerList (JList.cons y tl2) = rawSer y ++ rawSerTail tl2 from rfl,
              List.append_assoc, List.append_assoc] at h
            have hx : jsize x + jsize y < N := by
              rw [show jlsize (JList.cons x tl1) = 1 + jsize x + jlsize tl1 from rfl,
                show jlsize (JList.cons y tl2) = 1 + jsize y + jlsize tl2 from rfl] at hsz
              omega
            obtain ⟨he, htl⟩ := (ih _ hx).1 x y _ _ le_rfl
              (goodTail_serTail tl1 t1) (goodTail_serTail tl2 t2) h
            have ht : jlsize tl1 + jlsize tl2 < N := by
              rw [show jlsize (JList.cons x tl1) = 1 + jsize x + jlsize tl1 from rfl,
                show jlsize (JList.cons y tl2) = 1 + jsize y + jlsize tl2 from rfl] at hsz
              omega
            obtain ⟨he2, hr⟩ := (ih _ ht).2.2.1 tl1 tl2 t1 t2 le_rfl htl
            exact ⟨by rw [he, he2], hr⟩
  · intro l1 l2 t1 t2 hsz h
    cases l1 with
    | nil =>
        cases l2 with
        | nil =>
            rw [show rawSerTail JList.nil = [] from rfl] at h
            simp only [List.nil_append] at h
            injection h with _ h2
            exact ⟨rfl, h2⟩
        | cons y tl2 =>
            exfalso
            rw [show rawSerTail JList.nil = [] from rfl,
              show rawSerTail (JList.cons y tl2) = ',' :: ' ' :: rawSer y ++ rawSerTail tl2
                from rfl] at h
            simp only [List.nil_append, List.cons_append] at h
            injection h with hh _
            exact absurd hh (by decide)
    | cons x tl1 =>
        cases l2 with
        | nil =>
            exfalso
            rw [show rawSerTail JList.nil = [] from rfl,
              show rawSerTail (JList.cons x tl1) = ',' :: ' ' :: rawSer x ++ rawSerTail tl1
                from rfl] at h
            simp only [List.nil_append, List.cons_append] at h
            injection h with hh _
            exact absurd hh (by decide)
        | cons y tl2 =>
            rw [show rawSerTail (JList.cons x tl1) = ',' :: ' ' :: rawSer x ++ rawSerTail tl1
                from rfl,
              show rawSerTail (JList.cons y tl2) = ',' :: ' ' :: rawSer y ++ rawSerTail tl2
                from rfl] at h
            simp only [List.cons_append, List.append_assoc] at h
            injection h with _ h'
            injection h' with _ h''
            have hx : jsize x + jsize y < N := by
              rw [show jlsize (JList.cons x tl1) = 1 + jsize x + jlsize tl1 from rfl,
                show jlsize (JList.cons y tl2) = 1 + jsize y + jlsize tl2 from rfl] at hsz
              omega
            obtain ⟨he, htl⟩ := (ih _ hx).1 x y _ _ le_rfl
              (goodTail_serTail tl1 t1) (goodTail_serTail tl2 t2) h''
            have ht : jlsize tl1 + jlsize tl2 < N := by
              rw [show jlsize (JList.cons x tl1) = 1 + jsize x + jlsize tl1 from rfl,
                show jlsize (JList.cons y tl2) = 1 + jsize y + jlsize tl2 from rfl] at hsz
              omega
            obtain ⟨he2, hr⟩ := (ih _ ht).2.2.1 tl1 tl2 t1 t2 le_rfl htl
            exact ⟨by rw [he, he2], hr⟩
  · intro o1 o2 t1 t2 hsz h
    cases o1 with
    | nil =>
        cases o2 with
        | nil =>
            rw [show rawSerObj JObj.nil = [] from rfl] at h
            simp only [List.nil_append] at h
            injection h with _ h2
            exact ⟨rfl, h2⟩
        | cons k v tl2 =>
            exfalso
            rw [show rawSerObj JObj.nil = [] from rfl,
              show rawSerObj (JObj.cons k v tl2)
                = strSer k ++ ':' :: ' ' :: rawSer v ++ rawSerObjTail tl2 from rfl,
              show strSer k = '"' :: (k.data.flatMap escChar ++ ['"']) from rfl] at h
            simp only [List.nil_append, List.cons_append, List.append_assoc] at h
            injection h with hh _
            exact absurd hh (by decide)
    | cons k1 v1 tl1 =>
        cases o2 with
        | nil =>
            exfalso
            rw [show rawSerObj JObj.nil = [] from rfl,
              show rawSerObj (JObj.cons k1 v1 tl1)
                = strSer k1 ++ ':' :: ' ' :: rawSer v1 ++ rawSerObjTail tl1 from rfl,
              show strSer k1 = '"' :: (k1.data.flatMap escChar ++ ['"']) from rfl] at h
            simp only [List.nil_append, List.cons_append, List.append_assoc] at h
            injection h with hh _
            exact absurd hh (by decide)
        | cons k2 v2 tl2 =>
            rw [show rawSerObj (JObj.cons k1 v1 tl1)
                = strSer k1 ++ ':' :: ' ' :: rawSer v1 ++ rawSerObjTail tl1 from rfl,
              show rawSerObj (JObj.cons k2 v2 tl2)
                = strSer k2 ++ ':' :: ' ' :: rawSer v2 ++ rawSerObjTail tl2 from rfl] at h
            simp only [List.cons_append, List.append_assoc] at h
            obtain ⟨hk, hrest⟩ := strSer_inj_tail h
            injection hrest with _ h'
            injection h' with _ h''
            have hv : jsize v1 + jsize v2 < N := by
              rw [show josize (JObj.cons k1 v1 tl1) = 1 + jsize v1 + josize tl1 from rfl,
                show josize (JObj.cons k2 v2 tl2) = 1 + jsize v2 + josize tl2 from rfl] at hsz
              omega
            obtain ⟨hev, htl⟩ := (ih _ hv).1 v1 v2 _ _ le_rfl
              (goodTail_serObjTail tl1 t1) (goodTail_serObjTail tl2 t2) h''
            have ht : josize tl1 + josize tl2 < N := by
              rw [show josize (JObj.cons k1 v1 tl1) = 1 + jsize v1 + josize tl1 from rfl,
                show josize (JObj.cons k2 v2 tl2) = 1 + jsize v2 + josize tl2 from rfl] at hsz
              omega
            obtain ⟨he2, hr⟩ := (ih _ ht).2.2.2.2 tl1 tl2 t1 t2 le_rfl htl
            exact ⟨by rw [hk, hev, he2], hr⟩
  · intro o1 o2 t1 t2 hsz h
    cases o1 with
    | nil =>
        cases o2 with
        | nil =>
            rw [show rawSerObjTail JObj.nil = [] from rfl] at h
            simp only [List.nil_append] at h
            injection h with _ h2
            exact ⟨rfl, h2⟩
        | cons k v tl2 =>
            exfalso
            rw [show rawSerObjTail JObj.nil = [] from rfl,
              show rawSerObjTail (JObj.cons k v tl2)
                = ',' :: ' ' :: strSer k ++ ':' :: ' ' :: rawSer v ++ rawSerObjTail tl2
                from rfl] at h
            simp only [List.nil_append, List.cons_append] at h
            injection h with hh _
            exact absurd hh (by decide)
    | cons k1 v1 tl1 =>
        cases o2 with
        | nil =>
            exfalso
            rw [show rawSerObjTail JObj.nil = [] from rfl,
              show rawSerObjTail (JObj.cons k1 v1 tl1)
                = ',' :: ' ' :: strSer k1 ++ ':' :: ' ' :: rawSer v1 ++ rawSerObjTail tl1
                from rfl] at h
            simp only [List.nil_append, List.cons_append] at h
            injection h with hh _
            exact absurd hh (by decide)
        | cons k2 v2 tl2 =>
            rw [show rawSerObjTail (JObj.cons k1 v1 tl1)
                = ',' :: ' ' :: strSer k1 ++ ':' :: ' ' :: rawSer v1 ++ rawSerObjTail tl1
                from rfl,
              show rawSerObjTail (JObj.cons k2 v2 tl2)
                = ',' :: ' ' :: strSer k2 ++ ':' :: ' ' :: rawSer v2 ++ rawSerObjTail tl2
                from rfl] at h
            simp only [List.cons_append, List.append_assoc] at h
            injection h with _ h0
            injection h0 with _ h1
            obtain ⟨hk, hrest⟩ := strSer_inj_tail h1
            injection hrest with _ h'
            injection h' with _ h''
            have hv : jsize v1 + jsize v2 < N := by
              rw [show josize (JObj.cons k1 v1 tl1) = 1 + jsize v1 + josize tl1 from rfl,
                show josize (JObj.cons k2 v2 tl2) = 1 + jsize v2 + josize tl2 from rfl] at hsz
              omega
            obtain ⟨hev, htl⟩ := (ih _ hv).1 v1 v2 _ _ le_rfl
              (goodTail_serObjTail tl1 t1) (goodTail_serObjTail tl2 t2) h''
            have ht : josize tl1 + josize tl2 < N := by
              rw [show josize (JObj.cons k1 v1 tl1) = 1 + jsize v1 + josize tl1 from rfl,
                show josize (JObj.cons k2 v2 tl2) = 1 + jsize v2 + josize tl2 from rfl] at hsz
              omega
            obtain ⟨he2, hr⟩ := (ih _ ht).2.2.2.2 tl1 tl2 t1 t2 le_rfl htl
            exact ⟨by rw [hk, hev, he2], hr⟩

theorem rawSer_inj {j1 j2 : Json} (h : rawSer j1 = rawSer j2) : j1 = j2 := by
  have h' : rawSer j1 ++ [] = rawSer j2 ++ [] := by simp [h]
  exact ((rawSer_master (jsize j1 + jsize j2)).1 j1 j2 [] [] le_rfl
    goodTail_nil goodTail_nil h').1

/-! ### C6: assembling the claim -/

theorem jappend_left_cancel : ∀ (p x y : JList), jappend p x = jappend p y → x = y
  | .nil, _, _, h => h
  | .cons _ tl, x, y, h =>
      jappend_left_cancel tl x y (by injection h)

theorem oappend_left_cancel : ∀ (p : JObj) (x y : JObj), oappend p x = oappend p y → x = y
  | .nil, _, _, h => h
  | .cons _ _ tl, x, y, h =>
      oappend_left_cancel tl x y (by injection h)

theorem rldiof_irrefl (c : JList) (h : RecordListsDifferInOneField c c) : False := by
  obtain ⟨pre, post, opre, opost, fpre, fpost, k, v1, v2, h1, h2, hne⟩ := h
  rw [h1] at h2
  have h3 := jappend_left_cancel pre _ _ h2
  injection h3 with h4 _
  injection h4 with h6
  have h7 := oappend_left_cancel opre _ _ h6
  injection h7 with _ h8 _
  injection h8 with h9
  have h10 := oappend_left_cancel fpre _ _ h9
  injection h10 with _ h11 _
  exact hne h11

/-- C6 (amended): the content hash is invariant under key insertion order — any two
values with the same canonical (key-sorted) form hash identically; and the stable
serialization itself never collides on record lists whose canonical forms differ in
one field's value.  The original claim's second half — that the MD5 *hashes* always
differ — is refuted by `claim_C6_counterexample`, since a 128-bit digest of
unboundedly many serializations must collide. -/
theorem claim_C6 :
    (∀ a b : Json, canon a = canon b → calculate_data_hash a = calculate_data_hash b) ∧
    (∀ l1 l2 : JList, RecordListsDifferInOneField (canonList l1) (canonList l2) →
       serStr (Json.arr l1) ≠ serStr (Json.arr l2)) := by
  constructor
  · intro a b h
    unfold calculate_data_hash serStr ser
    rw [h]
  · intro l1 l2 hd heq
    have hdata : ser (Json.arr l1) = ser (Json.arr l2) := congrArg String.data heq
    have hc : canon (Json.arr l1) = canon (Json.arr l2) := rawSer_inj hdata
    have hc2 : Json.arr (canonList l1) = Json.arr (canonList l2) := hc
    injection hc2 with hcl
    rw [hcl] at hd
    exact rldiof_irrefl _ hd

theorem claim_C6_witness :
    calculate_data_hash (Json.obj (.cons "a" .null (.cons "b" .null .nil)))
      = calculate_data_hash (Json.obj (.cons "b" .null (.cons "a" .null .nil))) ∧
    serStr (Json.arr (.cons (Json.obj (.cons "fields"
        (Json.obj (.cons "note" (Json.str "x") .nil)) .nil)) .nil))
      ≠ serStr (Json.arr (.cons (Json.obj (.cons "fields"
        (Json.obj (.cons "note" (Json.str "y") .nil)) .nil)) .nil)) :=
  ⟨claim_C6.1 _ _ (by decide),
   claim_C6.2 _ _ ⟨.nil, .nil, .nil, .nil, .nil, .nil, "note", Json.str "x", Json.str "y",
     by decide, by decide, by decide⟩⟩
